import Mathlib

/-!
Verification development for the `nextjs-server-actions-highlighter` repository.

The development shallowly embeds the analyzer core:

* `src/analyzer/compute.ts` — the correlation pass `computeHighlights`: line-range
  helpers, local-action bookkeeping, candidate filtering, and the bounded concurrent
  resolution scheduler (modelled as an interpreter parametrised by an explicit
  environment that determinises the cooperative-concurrency interleavings);
* `src/core/calls.ts` — callee/qualifier extraction for call candidates;
* `src/core/definitions.ts` — the server-action definition extractor
  `scanServerActions` over a small syntax-tree datatype (the TypeScript parser
  `ts.createSourceFile` is the modelling boundary: extraction operates on the tree).

Machine integers do not occur (all offsets are JavaScript array indices, modelled as
`Nat`).  Asynchrony is single-threaded cooperative concurrency: "concurrent"
resolutions are interleaved suspensions, so a pass is a deterministic function of its
inputs plus an interleaving environment, and claims quantify over all environments.
-/

namespace SAH

/-- Offset range `{start, end}` from `compute.ts` (`end` is a Lean keyword; the field
is named `stop` here). Half-open character offsets, invariant `start <= end`. -/
structure OffsetRange where
  start : Nat
  stop : Nat
deriving DecidableEq, Repr

/-- `ServerActionSpan` from `src/core/definitions.ts`. -/
structure ServerActionSpan where
  name : String
  bodyStart : Nat
  bodyEnd : Nat
  nameStart : Option Nat := none
  nameEnd : Option Nat := none
deriving DecidableEq, Repr

/-- The `kind` discriminant of `CallSiteSpan` from `src/core/calls.ts`. -/
inductive CallKind where
  | jsxAction
  | jsxFormAction
  | directCall
  | startTransition
  | useActionState
deriving DecidableEq, Repr

/-- `CallSiteSpan` from `src/core/calls.ts`. -/
structure CallSiteSpan where
  kind : CallKind
  start : Nat
  stop : Nat
  calleeName : Option String := none
  qualifierName : Option String := none
deriving DecidableEq, Repr

/-- The four name collections consumed by `computeHighlights` (modelled as lists;
only membership is ever consulted, mirroring `Set.has`). -/
structure NameSets where
  localActionNames : List String
  imported : List String
  locals : List String
  nsImports : List String
deriving Repr

/-- `lineStartOffset` from `compute.ts`: walk left from `at` until offset 0 or a
character position whose predecessor is a newline. -/
def lineStartOffset (text : List Char) : Nat → Nat
  | 0 => 0
  | i + 1 => if text[i]? = some '\n' then i + 1 else lineStartOffset text i

/-- `lineEndOffset` from `compute.ts`: `text.indexOf('\n', at)`, or `text.length`
when there is no later newline (including `at` beyond the end, where
`indexOf` returns `-1`). -/
def lineEndOffset (text : List Char) (i : Nat) : Nat :=
  if h : i < text.length then
    if text.get ⟨i, h⟩ = '\n' then i else lineEndOffset text (i + 1)
  else text.length
termination_by text.length - i

theorem lineStartOffset_le (text : List Char) (i : Nat) : lineStartOffset text i ≤ i := by
  induction i with
  | zero => simp [lineStartOffset]
  | succ n ih =>
    rw [lineStartOffset]
    split
    · exact Nat.le_refl _
    · exact Nat.le_trans ih (Nat.le_succ n)

theorem lineStartOffset_le_length (text : List Char) (i : Nat) :
    lineStartOffset text i ≤ text.length := by
  induction i with
  | zero => simp [lineStartOffset]
  | succ n ih =>
    rw [lineStartOffset]
    split
    · rename_i h
      have hn : n < text.length := by
        by_contra hc
        rw [List.getElem?_eq_none (Nat.le_of_not_lt hc)] at h
        exact Option.noConfusion h
      exact hn
    · exact ih

theorem le_lineEndOffset (text : List Char) (i : Nat) (h : i ≤ text.length) :
    i ≤ lineEndOffset text i := by
  rw [lineEndOffset]
  split
  · split
    · exact Nat.le_refl _
    · rename_i hlt _
      exact Nat.le_trans (Nat.le_succ i) (le_lineEndOffset text (i + 1) hlt)
  · exact h
termination_by text.length - i

theorem lineEndOffset_le_length (text : List Char) (i : Nat) :
    lineEndOffset text i ≤ text.length := by
  rw [lineEndOffset]
  split
  · split
    · exact Nat.le_of_lt (by assumption)
    · exact lineEndOffset_le_length text (i + 1)
  · exact Nat.le_refl _
termination_by text.length - i

/-- The `bodyRanges` loop body of `computeHighlights`: a pushed range per span,
expanded to the full lines touched by the body. -/
def bodyRangesOf (text : List Char) (spans : List ServerActionSpan) : List OffsetRange :=
  spans.map fun s =>
    { start := lineStartOffset text s.bodyStart, stop := lineEndOffset text s.bodyEnd }

/-- The `iconRanges` loop body of `computeHighlights`: an empty range at the end of
the line holding the body's opening brace, pushed only when `text[s.bodyStart]`
is literally the character `{`. -/
def iconRangesOf (text : List Char) (spans : List ServerActionSpan) : List OffsetRange :=
  spans.filterMap fun s =>
    if text[s.bodyStart]? = some '{' then
      some { start := lineEndOffset text s.bodyStart, stop := lineEndOffset text s.bodyStart }
    else none

/-- The `localActionNames` accumulation of `computeHighlights`: names of spans that
are truthy and neither `(inline)` nor `default`. -/
def computeLocalActionNames (spans : List ServerActionSpan) : List String :=
  spans.filterMap fun s =>
    if s.name ≠ "" ∧ s.name ≠ "(inline)" ∧ s.name ≠ "default" then some s.name else none

/-!
## Callee expressions (`src/core/calls.ts`)

`CEx` captures the callee-expression shapes `unwrap`, `getCalleeIdent` and
`getQualifierIdent` discriminate on.  `other` stands for every remaining
expression kind (element access, call results, …), for which all three
TypeScript predicates are false.
-/

/-- Callee expression shapes from `scanCallSiteCandidates`. -/
inductive CEx where
  | ident (name : String)
  | propAccess (base : CEx) (name : String)
  | paren (e : CEx)
  | nonNull (e : CEx)
  | asExpr (e : CEx)
  | typeAssertion (e : CEx)
  | satisfiesExpr (e : CEx)
  | other
deriving DecidableEq, Repr

/-- One unwrapping step of `unwrap`: parentheses, non-null assertions, `as` casts,
angle-bracket type assertions and `satisfies` are peeled; everything else stops. -/
def unwrapStep : CEx → Option CEx
  | CEx.paren e => some e
  | CEx.nonNull e => some e
  | CEx.asExpr e => some e
  | CEx.typeAssertion e => some e
  | CEx.satisfiesExpr e => some e
  | _ => none

/-- `unwrap` from `scanCallSiteCandidates`: repeat `unwrapStep` up to the fixed
bound of 8 iterations. -/
def unwrapAux : Nat → CEx → CEx
  | 0, e => e
  | n + 1, e =>
    match unwrapStep e with
    | some e2 => unwrapAux n e2
    | none => e

def unwrap (e : CEx) : CEx := unwrapAux 8 e

/-- `getCalleeIdent`: a bare identifier, or the member name of a property access.
(The duck-typed fallback for pre-release TypeScript versions is not modelled;
for the shapes in `CEx` it coincides with the two structural branches.) -/
def getCalleeIdent (e : CEx) : Option String :=
  match unwrap e with
  | CEx.ident n => some n
  | CEx.propAccess _ n => some n
  | _ => none

/-- `getQualifierIdent`: the base of a property access when that base is itself a
bare identifier (`ns` in `ns.fn()`); `undefined` otherwise — in particular for a
two-level chain `ns.group.fn()`, whose base is another property access. -/
def getQualifierIdent (e : CEx) : Option String :=
  match unwrap e with
  | CEx.propAccess (CEx.ident b) _ => some b
  | _ => none

/-- The `directCall` push of `scanCallSiteCandidates` (lines 106–116): a candidate
is produced only when a callee identifier is found, spanning from the identifier
start (`start`) to the call's end (`stop`). -/
def mkDirectCallCandidate (callee : CEx) (start stop : Nat) : Option CallSiteSpan :=
  match getCalleeIdent callee with
  | none => none
  | some n =>
    some { kind := CallKind.directCall, start := start, stop := stop,
           calleeName := some n, qualifierName := getQualifierIdent callee }

/-!
## Candidate admission (`computeHighlights` loop body, lines 106–127)
-/

/-- JavaScript string truthiness of optional names (`c.calleeName && …`):
`undefined` and the empty string are falsy. -/
def optTruthy : Option String → Bool
  | none => false
  | some s => !(s = "")

/-- What the per-candidate part of the loop decides before any scheduling:
unconditional JSX acceptance, local short-circuit acceptance, rejection by
the name filter, or admission to oracle resolution at a probe offset. -/
inductive Decision where
  | acceptJsx
  | acceptLocal
  | reject
  | resolve (probe : Nat)
deriving DecidableEq, Repr

/-- The probe offset `inside` (line 123): callee start plus half the callee-name
length (at least 1), or the candidate start when the callee name is falsy. -/
def probeOffset (c : CallSiteSpan) : Nat :=
  if optTruthy c.calleeName then c.start + max 1 ((c.calleeName.getD "").length / 2)
  else c.start

/-- The admission decision for one candidate, mirroring lines 108–123 of
`computeHighlights` in order: JSX kinds accepted; truthy callee naming a local
server action accepted; truthy callee neither imported nor a local callable
rejected unless a truthy qualifier is a namespace import; otherwise resolved. -/
def decideCandidate (ns : NameSets) (c : CallSiteSpan) : Decision :=
  if c.kind = CallKind.jsxAction ∨ c.kind = CallKind.jsxFormAction then Decision.acceptJsx
  else if optTruthy c.calleeName ∧ ns.localActionNames.contains (c.calleeName.getD "") then
    Decision.acceptLocal
  else if optTruthy c.calleeName ∧ ¬ns.imported.contains (c.calleeName.getD "")
      ∧ ¬ns.locals.contains (c.calleeName.getD "")
      ∧ (¬optTruthy c.qualifierName ∨ ¬ns.nsImports.contains (c.qualifierName.getD "")) then
    Decision.reject
  else Decision.resolve (probeOffset c)

/-- The site range highlighted for a candidate (line 107). -/
def siteOf (c : CallSiteSpan) : OffsetRange := { start := c.start, stop := c.stop }

/-- The `add` closure of `computeHighlights`: push a range unless its
`start:end` key was already seen (dedup by span). -/
def addRange (rs : List OffsetRange) (r : OffsetRange) : List OffsetRange :=
  if r ∈ rs then rs else rs ++ [r]

theorem mem_addRange {rs : List OffsetRange} {r x : OffsetRange} :
    x ∈ addRange rs r ↔ x ∈ rs ∨ x = r := by
  unfold addRange
  split
  · rename_i h
    constructor
    · exact fun hx => Or.inl hx
    · rintro (hx | rfl)
      · exact hx
      · exact h
  · simp [List.mem_append]

theorem subset_addRange (rs : List OffsetRange) (r : OffsetRange) : rs ⊆ addRange rs r := by
  intro x hx
  exact mem_addRange.mpr (Or.inl hx)

theorem mem_addRange_self (rs : List OffsetRange) (r : OffsetRange) : r ∈ addRange rs r :=
  mem_addRange.mpr (Or.inr rfl)

/-- The ordering step (lines 60–69): with a visible range, candidates overlapping
it first, then the rest, both in extraction order; otherwise extraction order. -/
def orderCalls (vr : Option OffsetRange) (calls : List CallSiteSpan) : List CallSiteSpan :=
  match vr with
  | none => calls
  | some v =>
    calls.filter (fun c => decide (c.start ≤ v.stop) && decide (v.start ≤ c.stop))
      ++ calls.filter (fun c => !(decide (c.start ≤ v.stop) && decide (v.start ≤ c.stop)))

/-!
## The per-resolution timeout race (`runWithTimeout`, lines 84–90)

An oracle call (`resolveFn`) is a promise that may settle with a boolean, settle
with a rejection, or never settle.  With bounds, `Promise.race` pairs it with a
timer that resolves `false` after `resolveTimeoutMs`; the first settlement wins
(the underlying oracle call is not cancelled).  `none` models a race that never
settles (possible only without bounds); `some (Except.error ())` a rejection
propagating out of the race.
-/

/-- External behaviour of one oracle invocation: settles after `delay`
milliseconds with a value or a rejection, or never settles. -/
inductive OracleBehavior where
  | settles (delay : Nat) (value : Except Unit Bool)
  | never
deriving Repr

/-- `runWithTimeout`: without bounds the oracle's own settlement is returned as
is; with bounds the oracle races a `resolveTimeoutMs` timer and the timer,
when it fires first, resolves the race with `false`. -/
def runWithTimeout (useBounds : Bool) (resolveTimeoutMs : Nat) (o : OracleBehavior) :
    Option (Except Unit Bool) :=
  if !useBounds then
    match o with
    | OracleBehavior.settles _ v => some v
    | OracleBehavior.never => none
  else
    match o with
    | OracleBehavior.settles d v =>
        if d < resolveTimeoutMs then some v else some (Except.ok false)
    | OracleBehavior.never => some (Except.ok false)

/-!
## The bounded scheduler (`computeHighlights`, lines 79–143, `useBounds = true`)

JavaScript runs the pass single-threaded: in-flight resolutions make progress
only at the loop's suspension points (`await Promise.race(queue)` while the pool
is full, the `await schedule(…)` boundary, and the drain's `await p`).  The
interpreter below makes those interleavings explicit through an environment:

* `AdmitEnv.waitCompletions` — which in-flight resolutions settle during the
  backpressure wait of `schedule` (one per wait round);
* `AdmitEnv.postCompletions` — which settle between `schedule` returning and the
  loop's post-`schedule` budget check re-reading `resolutions`;
* `AdmitEnv.preTimeUp` / `postTimeUp` — the value of
  `Date.now() - startedAt > perPassBudgetMs` at the two budget checks;
* `AdmitEnv.ok` — the boolean this resolution's `runWithTimeout` race settles
  with (timeouts settle `false`);
* `PassEnv.drains` — which additional resolutions settle during each `await` of
  the drain loop.

The ghost fields `events` and `processed` record, respectively, the oracle
invocations / resolution completions and the candidates whose loop iteration
started; they have no effect on the computed ranges.
-/

/-- One admitted resolution: its highlight site and the boolean its timeout race
settles with. -/
structure Task where
  site : OffsetRange
  ok : Bool
deriving DecidableEq, Repr

/-- Observable events of a pass (ghost instrumentation): an oracle invocation at
a probe offset, or a resolution completion (its `resolutions++`). -/
inductive PassEvent where
  | oracleCall (site : OffsetRange) (probe : Nat)
  | completed (site : OffsetRange) (ok : Bool)
deriving DecidableEq, Repr

/-- Scheduler state: `res` is the `resolutions` counter, `inFlight` the pool
(`queue`, in admission order), `calls` counts `resolveFn` invocations, `ranges`
is `callRanges` with its span dedup, `hung` marks a backpressure wait that can
never be released (`maxConcurrent = 0`). -/
structure PassState where
  res : Nat
  inFlight : List Task
  calls : Nat
  ranges : List OffsetRange
  events : List PassEvent
  processed : List CallSiteSpan
  hung : Bool
deriving DecidableEq, Repr

def initState : PassState :=
  { res := 0, inFlight := [], calls := 0, ranges := [], events := [], processed := [],
    hung := false }

/-- Settlement of the in-flight resolution at index `i` (no-op when out of
range): the task body finishes its `runWithTimeout` await, adds its site on a
`true` outcome, increments `resolutions`, and leaves the pool/queue. -/
def completeAt (st : PassState) (i : Nat) : PassState :=
  match st.inFlight[i]? with
  | none => st
  | some t =>
    { st with
      res := st.res + 1
      inFlight := st.inFlight.eraseIdx i
      ranges := if t.ok then addRange st.ranges t.site else st.ranges
      events := st.events ++ [PassEvent.completed t.site t.ok] }

/-- A sequence of settlements at one suspension point. -/
def runCompletions (st : PassState) (idxs : List Nat) : PassState :=
  idxs.foldl completeAt st

/-- Interleaving choices for one candidate that reaches the scheduling path. -/
structure AdmitEnv where
  waitCompletions : List Nat
  postCompletions : List Nat
  preTimeUp : Bool
  postTimeUp : Bool
  ok : Bool
deriving Repr

def defaultAdmitEnv : AdmitEnv :=
  { waitCompletions := [], postCompletions := [], preTimeUp := false, postTimeUp := false,
    ok := false }

/-- The backpressure loop of `schedule` (lines 94–97): while the pool is full,
await any settlement.  `fuel` is the pool size at entry — each wait round
settles one member, so that many rounds always suffice; an empty pool that still
satisfies `inFlight >= maxConcurrent` (only `maxConcurrent = 0`) waits forever,
recorded as `hung`. -/
def waitForSlot (mc : Nat) : Nat → PassState → List Nat → PassState
  | 0, st, _ => if st.inFlight.length < mc then st else { st with hung := true }
  | fuel + 1, st, waits =>
    if st.inFlight.length < mc then st
    else if st.inFlight.isEmpty then { st with hung := true }
    else
      let i := waits.headD 0
      let j := if i < st.inFlight.length then i else 0
      waitForSlot mc fuel (completeAt st j) waits.tail

/-- Admission of a candidate into the pool (lines 98–103 and the synchronous
prefix of `resolveCallCandidate`): the wrapped task starts immediately, so the
oracle is invoked at admission time; the new queue entry carries the outcome its
race will settle with. -/
def admitTask (st : PassState) (c : CallSiteSpan) (ok : Bool) : PassState :=
  { st with
    calls := st.calls + 1
    inFlight := st.inFlight ++ [{ site := siteOf c, ok := ok }]
    events := st.events ++ [PassEvent.oracleCall (siteOf c) (probeOffset c)] }

/-- The candidate loop of `computeHighlights` (lines 106–138) with bounds in
effect: JSX and local-action candidates are accepted synchronously, filtered
candidates skipped; the rest hit the pre-`schedule` budget check (`break` on
`resolutions >= maxResolutions` or an expired pass budget), the backpressure
wait, admission, the `await schedule` suspension, and the post-`schedule`
budget check. -/
def runLoop (mc mr : Nat) (ns : NameSets) :
    PassState → List CallSiteSpan → List AdmitEnv → PassState
  | st, [], _ => st
  | st, c :: cs, envs =>
    let st0 := { st with processed := st.processed ++ [c] }
    match decideCandidate ns c with
    | Decision.acceptJsx =>
        runLoop mc mr ns { st0 with ranges := addRange st0.ranges (siteOf c) } cs envs
    | Decision.acceptLocal =>
        runLoop mc mr ns { st0 with ranges := addRange st0.ranges (siteOf c) } cs envs
    | Decision.reject => runLoop mc mr ns st0 cs envs
    | Decision.resolve _ =>
      let e := envs.headD defaultAdmitEnv
      if mr ≤ st0.res ∨ e.preTimeUp then st0
      else
        let st1 := waitForSlot mc st0.inFlight.length st0 e.waitCompletions
        if st1.hung then st1
        else
          let st2 := admitTask st1 c e.ok
          let st3 := runCompletions st2 e.postCompletions
          if mr ≤ st3.res ∨ e.postTimeUp then st3
          else runLoop mc mr ns st3 cs envs.tail

/-- The drain loop (line 141): `for (const p of queue) { await p; }` iterated by
array index over the **live** queue.  Each round awaits the member at the
current index; when it settles, its cleanup `finally` splices it out of the
queue *before* the loop resumes (reactions run in registration order), so the
iterator's next index skips the element shifted into the vacated slot.  `envs`
lists the other members that also settle during the round's await. -/
def drainLoop : Nat → Nat → PassState → List (List Nat) → PassState
  | 0, _, st, _ => st
  | fuel + 1, i, st, envs =>
    if h : i < st.inFlight.length then
      let t := st.inFlight.get ⟨i, h⟩
      let st1 := runCompletions st (envs.headD [])
      let st2 :=
        match st1.inFlight.findIdx? (fun x => decide (x = t)) with
        | some j => completeAt st1 j
        | none => st1
      drainLoop fuel (i + 1) st2 envs.tail
    else st

/-- Interleaving environment of one whole pass. -/
structure PassEnv where
  admits : List AdmitEnv
  drains : List (List Nat)
deriving Repr

/-- One bounded correlation pass over already-ordered candidates: the candidate
loop followed by the drain (a pass stuck in the backpressure wait never reaches
the drain). -/
def runPassBounded (mc mr : Nat) (ns : NameSets) (cands : List CallSiteSpan)
    (env : PassEnv) : PassState :=
  let stL := runLoop mc mr ns initState cands env.admits
  if stL.hung then stL else drainLoop stL.inFlight.length 0 stL env.drains

/-- Result of the unbounded (`options` omitted) pass. -/
structure URes where
  ranges : List OffsetRange
  calls : Nat
  events : List PassEvent
deriving DecidableEq, Repr

/-- The candidate loop with bounds disabled: `schedule` runs each task inline
(`await task()`), so resolution is fully sequential, without timeout or budget;
`oks` lists the booleans the oracle settles with (an oracle that never settles
or rejects makes the pass hang or abort instead — outside this function's
domain). -/
def runUnbounded (ns : NameSets) : List CallSiteSpan → List Bool → URes → URes
  | [], _, acc => acc
  | c :: cs, oks, acc =>
    match decideCandidate ns c with
    | Decision.acceptJsx =>
        runUnbounded ns cs oks { acc with ranges := addRange acc.ranges (siteOf c) }
    | Decision.acceptLocal =>
        runUnbounded ns cs oks { acc with ranges := addRange acc.ranges (siteOf c) }
    | Decision.reject => runUnbounded ns cs oks acc
    | Decision.resolve _ =>
      let ok := oks.headD false
      runUnbounded ns cs oks.tail
        { ranges := if ok then addRange acc.ranges (siteOf c) else acc.ranges
          calls := acc.calls + 1
          events := acc.events
            ++ [PassEvent.oracleCall (siteOf c) (probeOffset c),
                PassEvent.completed (siteOf c) ok] }

def initURes : URes := { ranges := [], calls := 0, events := [] }

/-!
## Cancellation (modelled from the spec)

The cooperative cancellation signal is absent from `src/analyzer/compute.ts`
(`ComputeOptions` in `src/analyzer/types.ts` has no signal field and the pass
never reads one), although the extension-side caller creates an
`AbortController` and passes its signal.  The spec (§4.4) specifies the missing
handling: the signal is checked before admitting a candidate into the pool,
while waiting for a pool slot, and as a third race participant beside the
resolution and its timeout; once signalled, no new candidates are admitted and
the iteration loop terminates early; on the cancelled path already-admitted
resolutions are left to finish in the background instead of being drained.
`signal : Bool` below is the signal's state for the whole pass (`true` models a
signal already signalled before the pass starts).
-/

/-- Modelled from the spec: the candidate loop extended with the cancellation
signal, checked before admitting a candidate into the pool (terminating the
iteration when signalled); a signalled race settles `false`. -/
def runLoopSignal (signal : Bool) (mc mr : Nat) (ns : NameSets) :
    PassState → List CallSiteSpan → List AdmitEnv → PassState
  | st, [], _ => st
  | st, c :: cs, envs =>
    let st0 := { st with processed := st.processed ++ [c] }
    match decideCandidate ns c with
    | Decision.acceptJsx =>
        runLoopSignal signal mc mr ns { st0 with ranges := addRange st0.ranges (siteOf c) }
          cs envs
    | Decision.acceptLocal =>
        runLoopSignal signal mc mr ns { st0 with ranges := addRange st0.ranges (siteOf c) }
          cs envs
    | Decision.reject => runLoopSignal signal mc mr ns st0 cs envs
    | Decision.resolve _ =>
      if signal then st0
      else
        let e := envs.headD defaultAdmitEnv
        if mr ≤ st0.res ∨ e.preTimeUp then st0
        else
          let st1 := waitForSlot mc st0.inFlight.length st0 e.waitCompletions
          if st1.hung then st1
          else
            let st2 := admitTask st1 c (e.ok && !signal)
            let st3 := runCompletions st2 e.postCompletions
            if mr ≤ st3.res ∨ e.postTimeUp then st3
            else runLoopSignal signal mc mr ns st3 cs envs.tail

/-- Modelled from the spec: the whole pass with cancellation — when the signal
is raised, in-flight resolutions are left to finish in the background
(fire-and-forget) instead of being drained. -/
def runPassSignal (signal : Bool) (mc mr : Nat) (ns : NameSets)
    (cands : List CallSiteSpan) (env : PassEnv) : PassState :=
  let stL := runLoopSignal signal mc mr ns initState cands env.admits
  if signal then stL
  else if stL.hung then stL else drainLoop stL.inFlight.length 0 stL env.drains

/-!
## Scheduler invariants
-/

theorem mem_of_getElemOpt {α : Type} {l : List α} {i : Nat} {a : α}
    (h : l[i]? = some a) : a ∈ l := by
  have hi : i < l.length := by
    by_contra hc
    rw [List.getElem?_eq_none (Nat.le_of_not_lt hc)] at h
    exact Option.noConfusion h
  have := List.getElem?_eq_getElem hi
  rw [this] at h
  have ha : l[i] = a := Option.some.inj h
  rw [← ha]
  exact List.getElem_mem hi

theorem completeAt_calls (st : PassState) (i : Nat) : (completeAt st i).calls = st.calls := by
  unfold completeAt
  cases h : st.inFlight[i]? <;> simp

theorem completeAt_hung (st : PassState) (i : Nat) : (completeAt st i).hung = st.hung := by
  unfold completeAt
  cases h : st.inFlight[i]? <;> simp

theorem completeAt_processed (st : PassState) (i : Nat) :
    (completeAt st i).processed = st.processed := by
  unfold completeAt
  cases h : st.inFlight[i]? <;> simp

theorem completeAt_sum (st : PassState) (i : Nat) :
    (completeAt st i).res + (completeAt st i).inFlight.length
      = st.res + st.inFlight.length := by
  unfold completeAt
  cases h : st.inFlight[i]? with
  | none => simp
  | some t =>
    have hi : i < st.inFlight.length := by
      by_contra hc
      rw [List.getElem?_eq_none (Nat.le_of_not_lt hc)] at h
      exact Option.noConfusion h
    have hlen : (st.inFlight.eraseIdx i).length = st.inFlight.length - 1 :=
      List.length_eraseIdx_of_lt hi
    simp only [hlen]
    omega

theorem completeAt_len_le (st : PassState) (i : Nat) :
    (completeAt st i).inFlight.length ≤ st.inFlight.length := by
  unfold completeAt
  cases h : st.inFlight[i]? with
  | none => simp
  | some t =>
    simp only
    exact List.length_eraseIdx_le _ _

theorem completeAt_ranges_subset (st : PassState) (i : Nat) :
    st.ranges ⊆ (completeAt st i).ranges := by
  unfold completeAt
  cases h : st.inFlight[i]? with
  | none => exact fun x hx => hx
  | some t =>
    intro x hx
    simp only
    split
    · exact subset_addRange _ _ hx
    · exact hx

theorem completeAt_ranges_from (st : PassState) (i : Nat) :
    ∀ x ∈ (completeAt st i).ranges,
      x ∈ st.ranges ∨ ∃ t ∈ st.inFlight, t.ok = true ∧ x = t.site := by
  intro x hx
  unfold completeAt at hx
  cases h : st.inFlight[i]? with
  | none => rw [h] at hx; exact Or.inl hx
  | some t =>
    rw [h] at hx
    simp only at hx
    by_cases hok : t.ok = true
    · rw [if_pos hok] at hx
      rcases mem_addRange.mp hx with hmem | rfl
      · exact Or.inl hmem
      · exact Or.inr ⟨t, mem_of_getElemOpt h, hok, rfl⟩
    · rw [if_neg hok] at hx
      exact Or.inl hx

theorem completeAt_inFlight_subset (st : PassState) (i : Nat) :
    (completeAt st i).inFlight ⊆ st.inFlight := by
  unfold completeAt
  cases h : st.inFlight[i]? with
  | none => exact fun x hx => hx
  | some t =>
    intro x hx
    simp only at hx
    exact List.eraseIdx_subset _ _ hx

theorem completeAt_events_from (st : PassState) (i : Nat) :
    ∀ ev ∈ (completeAt st i).events,
      ev ∈ st.events ∨ ∃ t ∈ st.inFlight, ev = PassEvent.completed t.site t.ok := by
  intro ev hev
  unfold completeAt at hev
  cases h : st.inFlight[i]? with
  | none => rw [h] at hev; exact Or.inl hev
  | some t =>
    rw [h] at hev
    simp only [List.mem_append, List.mem_singleton] at hev
    rcases hev with hev | rfl
    · exact Or.inl hev
    · exact Or.inr ⟨t, mem_of_getElemOpt h, rfl⟩

theorem runCompletions_cons (st : PassState) (i : Nat) (l : List Nat) :
    runCompletions st (i :: l) = runCompletions (completeAt st i) l := rfl

theorem runCompletions_calls (st : PassState) (l : List Nat) :
    (runCompletions st l).calls = st.calls := by
  induction l generalizing st with
  | nil => rfl
  | cons i l ih => rw [runCompletions_cons, ih (completeAt st i), completeAt_calls]

theorem runCompletions_hung (st : PassState) (l : List Nat) :
    (runCompletions st l).hung = st.hung := by
  induction l generalizing st with
  | nil => rfl
  | cons i l ih => rw [runCompletions_cons, ih (completeAt st i), completeAt_hung]

theorem runCompletions_processed (st : PassState) (l : List Nat) :
    (runCompletions st l).processed = st.processed := by
  induction l generalizing st with
  | nil => rfl
  | cons i l ih => rw [runCompletions_cons, ih (completeAt st i), completeAt_processed]

theorem runCompletions_sum (st : PassState) (l : List Nat) :
    (runCompletions st l).res + (runCompletions st l).inFlight.length
      = st.res + st.inFlight.length := by
  induction l generalizing st with
  | nil => rfl
  | cons i l ih => rw [runCompletions_cons, ih (completeAt st i), completeAt_sum]

theorem runCompletions_len_le (st : PassState) (l : List Nat) :
    (runCompletions st l).inFlight.length ≤ st.inFlight.length := by
  induction l generalizing st with
  | nil => exact Nat.le_refl _
  | cons i l ih =>
    rw [runCompletions_cons]
    exact Nat.le_trans (ih (completeAt st i)) (completeAt_len_le st i)

theorem runCompletions_ranges_subset (st : PassState) (l : List Nat) :
    st.ranges ⊆ (runCompletions st l).ranges := by
  induction l generalizing st with
  | nil => exact fun x hx => hx
  | cons i l ih =>
    rw [runCompletions_cons]
    exact fun x hx => ih (completeAt st i) (completeAt_ranges_subset st i hx)

theorem runCompletions_ranges_from (st : PassState) (l : List Nat) :
    ∀ x ∈ (runCompletions st l).ranges,
      x ∈ st.ranges ∨ ∃ t ∈ st.inFlight, t.ok = true ∧ x = t.site := by
  induction l generalizing st with
  | nil => exact fun x hx => Or.inl hx
  | cons i l ih =>
    rw [runCompletions_cons]
    intro x hx
    rcases ih (completeAt st i) x hx with hmem | ⟨t, ht, hok, rfl⟩
    · exact completeAt_ranges_from st i x hmem
    · exact Or.inr ⟨t, completeAt_inFlight_subset st i ht, hok, rfl⟩

theorem runCompletions_inFlight_subset (st : PassState) (l : List Nat) :
    (runCompletions st l).inFlight ⊆ st.inFlight := by
  induction l generalizing st with
  | nil => exact fun x hx => hx
  | cons i l ih =>
    rw [runCompletions_cons]
    exact fun x hx => completeAt_inFlight_subset st i (ih (completeAt st i) hx)

theorem runCompletions_events_from (st : PassState) (l : List Nat) :
    ∀ ev ∈ (runCompletions st l).events,
      ev ∈ st.events ∨ ∃ t ∈ st.inFlight, ev = PassEvent.completed t.site t.ok := by
  induction l generalizing st with
  | nil => exact fun ev hev => Or.inl hev
  | cons i l ih =>
    rw [runCompletions_cons]
    intro ev hev
    rcases ih (completeAt st i) ev hev with hmem | ⟨t, ht, rfl⟩
    · exact completeAt_events_from st i ev hmem
    · exact Or.inr ⟨t, completeAt_inFlight_subset st i ht, rfl⟩

theorem waitForSlot_calls (mc fuel : Nat) (st : PassState) (w : List Nat) :
    (waitForSlot mc fuel st w).calls = st.calls := by
  induction fuel generalizing st w with
  | zero => rw [waitForSlot]; split <;> simp
  | succ n ih =>
    rw [waitForSlot]
    split
    · rfl
    · split
      · rfl
      · rw [ih, completeAt_calls]

theorem waitForSlot_processed (mc fuel : Nat) (st : PassState) (w : List Nat) :
    (waitForSlot mc fuel st w).processed = st.processed := by
  induction fuel generalizing st w with
  | zero => rw [waitForSlot]; split <;> simp
  | succ n ih =>
    rw [waitForSlot]
    split
    · rfl
    · split
      · rfl
      · rw [ih, completeAt_processed]

theorem waitForSlot_sum (mc fuel : Nat) (st : PassState) (w : List Nat) :
    (waitForSlot mc fuel st w).res + (waitForSlot mc fuel st w).inFlight.length
      = st.res + st.inFlight.length := by
  induction fuel generalizing st w with
  | zero => rw [waitForSlot]; split <;> simp
  | succ n ih =>
    rw [waitForSlot]
    split
    · rfl
    · split
      · rfl
      · rw [ih, completeAt_sum]

theorem waitForSlot_len_le (mc fuel : Nat) (st : PassState) (w : List Nat) :
    (waitForSlot mc fuel st w).inFlight.length ≤ st.inFlight.length := by
  induction fuel generalizing st w with
  | zero => rw [waitForSlot]; split <;> simp
  | succ n ih =>
    rw [waitForSlot]
    split
    · exact Nat.le_refl _
    · split
      · exact Nat.le_refl _
      · exact Nat.le_trans (ih _ _) (completeAt_len_le st _)

theorem waitForSlot_not_hung (mc fuel : Nat) (st : PassState) (w : List Nat)
    (h : (waitForSlot mc fuel st w).hung = false) :
    (waitForSlot mc fuel st w).inFlight.length < mc := by
  induction fuel generalizing st w with
  | zero =>
    rw [waitForSlot] at h ⊢
    by_cases hlt : st.inFlight.length < mc
    · rw [if_pos hlt]; exact hlt
    · rw [if_neg hlt] at h; simp at h
  | succ n ih =>
    rw [waitForSlot] at h ⊢
    by_cases hlt : st.inFlight.length < mc
    · rw [if_pos hlt]; exact hlt
    · rw [if_neg hlt] at h ⊢
      by_cases hemp : st.inFlight.isEmpty = true
      · rw [if_pos hemp] at h; simp at h
      · rw [if_neg hemp] at h ⊢
        exact ih _ _ h

theorem waitForSlot_ranges_subset (mc fuel : Nat) (st : PassState) (w : List Nat) :
    st.ranges ⊆ (waitForSlot mc fuel st w).ranges := by
  induction fuel generalizing st w with
  | zero => rw [waitForSlot]; split <;> exact fun x hx => hx
  | succ n ih =>
    rw [waitForSlot]
    split
    · exact fun x hx => hx
    · split
      · exact fun x hx => hx
      · exact fun x hx => ih _ _ (completeAt_ranges_subset st _ hx)

theorem waitForSlot_ranges_from (mc fuel : Nat) (st : PassState) (w : List Nat) :
    ∀ x ∈ (waitForSlot mc fuel st w).ranges,
      x ∈ st.ranges ∨ ∃ t ∈ st.inFlight, t.ok = true ∧ x = t.site := by
  induction fuel generalizing st w with
  | zero =>
    rw [waitForSlot]; split <;> exact fun x hx => Or.inl hx
  | succ n ih =>
    rw [waitForSlot]
    split
    · exact fun x hx => Or.inl hx
    · split
      · exact fun x hx => Or.inl hx
      · intro x hx
        rcases ih _ _ x hx with hmem | ⟨t, ht, hok, rfl⟩
        · exact completeAt_ranges_from st _ x hmem
        · exact Or.inr ⟨t, completeAt_inFlight_subset st _ ht, hok, rfl⟩

theorem waitForSlot_inFlight_subset (mc fuel : Nat) (st : PassState) (w : List Nat) :
    (waitForSlot mc fuel st w).inFlight ⊆ st.inFlight := by
  induction fuel generalizing st w with
  | zero => rw [waitForSlot]; split <;> exact fun x hx => hx
  | succ n ih =>
    rw [waitForSlot]
    split
    · exact fun x hx => hx
    · split
      · exact fun x hx => hx
      · exact fun x hx => completeAt_inFlight_subset st _ (ih _ _ hx)

theorem waitForSlot_events_from (mc fuel : Nat) (st : PassState) (w : List Nat) :
    ∀ ev ∈ (waitForSlot mc fuel st w).events,
      ev ∈ st.events ∨ ∃ t ∈ st.inFlight, ev = PassEvent.completed t.site t.ok := by
  induction fuel generalizing st w with
  | zero => rw [waitForSlot]; split <;> exact fun ev hev => Or.inl hev
  | succ n ih =>
    rw [waitForSlot]
    split
    · exact fun ev hev => Or.inl hev
    · split
      · exact fun ev hev => Or.inl hev
      · intro ev hev
        rcases ih _ _ ev hev with hmem | ⟨t, ht, rfl⟩
        · exact completeAt_events_from st _ ev hmem
        · exact Or.inr ⟨t, completeAt_inFlight_subset st _ ht, rfl⟩

theorem admitTask_res (st : PassState) (c : CallSiteSpan) (ok : Bool) :
    (admitTask st c ok).res = st.res := rfl

theorem admitTask_calls (st : PassState) (c : CallSiteSpan) (ok : Bool) :
    (admitTask st c ok).calls = st.calls + 1 := rfl

theorem admitTask_hung (st : PassState) (c : CallSiteSpan) (ok : Bool) :
    (admitTask st c ok).hung = st.hung := rfl

theorem admitTask_len (st : PassState) (c : CallSiteSpan) (ok : Bool) :
    (admitTask st c ok).inFlight.length = st.inFlight.length + 1 := by
  simp [admitTask]

/-- `decideCandidate` builds `resolve` only at the candidate's probe offset. -/
theorem decide_resolve_probe {ns : NameSets} {c : CallSiteSpan} {p : Nat}
    (h : decideCandidate ns c = Decision.resolve p) : p = probeOffset c := by
  unfold decideCandidate at h
  split at h
  · exact absurd h (by simp)
  · split at h
    · exact absurd h (by simp)
    · split at h
      · exact absurd h (by simp)
      · exact (Decision.resolve.inj h).symm

/-- Counting invariant of the candidate loop: `resolveFn` is invoked once per
admission, `resolutions` counts completions, a passed pre-check pins
`resolutions < maxResolutions`, and the pool never exceeds `maxConcurrent`;
together these bound the number of oracle invocations. -/
theorem runLoop_budget (mc mr : Nat) (ns : NameSets) (l : List CallSiteSpan)
    (envs : List AdmitEnv) (st : PassState)
    (hsum : st.calls = st.res + st.inFlight.length)
    (hlen : st.inFlight.length ≤ mc)
    (hcalls : st.calls ≤ mr + mc)
    (hhung : st.hung = false) :
    (runLoop mc mr ns st l envs).calls ≤ mr + mc := by
  induction l generalizing st envs with
  | nil => rw [runLoop]; exact hcalls
  | cons c cs ih =>
    rw [runLoop]
    cases hdec : decideCandidate ns c with
    | acceptJsx => exact ih envs _ hsum hlen hcalls hhung
    | acceptLocal => exact ih envs _ hsum hlen hcalls hhung
    | reject => exact ih envs _ hsum hlen hcalls hhung
    | resolve p =>
      simp only
      by_cases hbrk : mr ≤ st.res ∨ (envs.headD defaultAdmitEnv).preTimeUp
      · rw [if_pos hbrk]; exact hcalls
      · rw [if_neg hbrk]
        have hres : st.res < mr := by
          rcases Nat.lt_or_ge st.res mr with h | h
          · exact h
          · exact absurd (Or.inl h) hbrk
        set st0 : PassState := { st with processed := st.processed ++ [c] } with hst0
        set e := envs.headD defaultAdmitEnv with he
        set st1 := waitForSlot mc st0.inFlight.length st0 e.waitCompletions with hst1
        by_cases hh : st1.hung = true
        · rw [if_pos hh]
          have : st1.calls = st0.calls := waitForSlot_calls mc _ st0 _
          rw [this]
          exact hcalls
        · rw [if_neg hh]
          have hh' : st1.hung = false := by
            cases h : st1.hung
            · rfl
            · exact absurd h hh
          have hsum1 : st1.res + st1.inFlight.length = st.res + st.inFlight.length :=
            waitForSlot_sum mc _ st0 _
          have hcalls1 : st1.calls = st.calls := waitForSlot_calls mc _ st0 _
          have hlt1 : st1.inFlight.length < mc := waitForSlot_not_hung mc _ st0 _ hh'
          set st2 := admitTask st1 c e.ok with hst2
          have hcalls2 : st2.calls = st.calls + 1 := by rw [hst2, admitTask_calls, hcalls1]
          have hsum2 : st2.calls = st2.res + st2.inFlight.length := by
            rw [hcalls2, hst2, admitTask_res, admitTask_len, hsum, ← hsum1]
            omega
          have hlen2 : st2.inFlight.length ≤ mc := by
            rw [hst2, admitTask_len]; omega
          have hbound2 : st2.calls ≤ mr + mc := by
            rw [hcalls2, hsum]
            have : st.res + st.inFlight.length ≤ (mr - 1) + mc := by omega
            omega
          have hhung2 : st2.hung = false := by rw [hst2, admitTask_hung]; exact hh'
          set st3 := runCompletions st2 e.postCompletions with hst3
          have hcalls3 : st3.calls = st2.calls := runCompletions_calls st2 _
          have hsum3 : st3.res + st3.inFlight.length = st2.res + st2.inFlight.length :=
            runCompletions_sum st2 _
          have hlen3 : st3.inFlight.length ≤ st2.inFlight.length :=
            runCompletions_len_le st2 _
          have hhung3 : st3.hung = false := by rw [hst3, runCompletions_hung]; exact hhung2
          by_cases hbrk2 : mr ≤ st3.res ∨ e.postTimeUp
          · rw [if_pos hbrk2]; rw [hcalls3]; exact hbound2
          · rw [if_neg hbrk2]
            refine ih envs.tail st3 ?_ ?_ ?_ hhung3
            · rw [hcalls3, hsum2]; omega
            · exact Nat.le_trans hlen3 hlen2
            · rw [hcalls3]; exact hbound2

/-- One drain round as a state transformer (the body of `drainLoop`). -/
def drainRound (st : PassState) (i : Nat) (extras : List Nat) (h : i < st.inFlight.length) :
    PassState :=
  match (runCompletions st extras).inFlight.findIdx?
      (fun x => decide (x = st.inFlight.get ⟨i, h⟩)) with
  | some j => completeAt (runCompletions st extras) j
  | none => runCompletions st extras

theorem drainRound_calls (st : PassState) (i : Nat) (extras : List Nat)
    (h : i < st.inFlight.length) : (drainRound st i extras h).calls = st.calls := by
  unfold drainRound
  split
  · rw [completeAt_calls, runCompletions_calls]
  · rw [runCompletions_calls]

theorem drainRound_hung (st : PassState) (i : Nat) (extras : List Nat)
    (h : i < st.inFlight.length) : (drainRound st i extras h).hung = st.hung := by
  unfold drainRound
  split
  · rw [completeAt_hung, runCompletions_hung]
  · rw [runCompletions_hung]

theorem drainRound_processed (st : PassState) (i : Nat) (extras : List Nat)
    (h : i < st.inFlight.length) : (drainRound st i extras h).processed = st.processed := by
  unfold drainRound
  split
  · rw [completeAt_processed, runCompletions_processed]
  · rw [runCompletions_processed]

theorem drainRound_ranges_subset (st : PassState) (i : Nat) (extras : List Nat)
    (h : i < st.inFlight.length) : st.ranges ⊆ (drainRound st i extras h).ranges := by
  unfold drainRound
  split
  · exact fun x hx =>
      completeAt_ranges_subset _ _ (runCompletions_ranges_subset st extras hx)
  · exact runCompletions_ranges_subset st extras

theorem drainRound_ranges_from (st : PassState) (i : Nat) (extras : List Nat)
    (h : i < st.inFlight.length) :
    ∀ x ∈ (drainRound st i extras h).ranges,
      x ∈ st.ranges ∨ ∃ t ∈ st.inFlight, t.ok = true ∧ x = t.site := by
  unfold drainRound
  split
  · intro x hx
    rcases completeAt_ranges_from _ _ x hx with hmem | ⟨t, ht, hok, rfl⟩
    · exact runCompletions_ranges_from st extras x hmem
    · exact Or.inr ⟨t, runCompletions_inFlight_subset st extras ht, hok, rfl⟩
  · exact runCompletions_ranges_from st extras

theorem drainRound_inFlight_subset (st : PassState) (i : Nat) (extras : List Nat)
    (h : i < st.inFlight.length) : (drainRound st i extras h).inFlight ⊆ st.inFlight := by
  unfold drainRound
  split
  · exact fun x hx =>
      runCompletions_inFlight_subset st extras (completeAt_inFlight_subset _ _ hx)
  · exact runCompletions_inFlight_subset st extras

theorem drainRound_events_from (st : PassState) (i : Nat) (extras : List Nat)
    (h : i < st.inFlight.length) :
    ∀ ev ∈ (drainRound st i extras h).events,
      ev ∈ st.events ∨ ∃ t ∈ st.inFlight, ev = PassEvent.completed t.site t.ok := by
  unfold drainRound
  split
  · intro ev hev
    rcases completeAt_events_from _ _ ev hev with hmem | ⟨t, ht, rfl⟩
    · exact runCompletions_events_from st extras ev hmem
    · exact Or.inr ⟨t, runCompletions_inFlight_subset st extras ht, rfl⟩
  · exact runCompletions_events_from st extras

theorem drainLoop_eq_round (fuel i : Nat) (st : PassState) (envs : List (List Nat))
    (h : i < st.inFlight.length) :
    drainLoop (fuel + 1) i st envs
      = drainLoop fuel (i + 1) (drainRound st i (envs.headD []) h) envs.tail := by
  rw [drainLoop, dif_pos h]
  rfl

theorem drainLoop_calls (fuel i : Nat) (st : PassState) (envs : List (List Nat)) :
    (drainLoop fuel i st envs).calls = st.calls := by
  induction fuel generalizing i st envs with
  | zero => rfl
  | succ n ih =>
    by_cases h : i < st.inFlight.length
    · rw [drainLoop_eq_round n i st envs h, ih, drainRound_calls]
    · rw [drainLoop, dif_neg h]

theorem drainLoop_processed (fuel i : Nat) (st : PassState) (envs : List (List Nat)) :
    (drainLoop fuel i st envs).processed = st.processed := by
  induction fuel generalizing i st envs with
  | zero => rfl
  | succ n ih =>
    by_cases h : i < st.inFlight.length
    · rw [drainLoop_eq_round n i st envs h, ih, drainRound_processed]
    · rw [drainLoop, dif_neg h]

theorem drainLoop_ranges_subset (fuel i : Nat) (st : PassState) (envs : List (List Nat)) :
    st.ranges ⊆ (drainLoop fuel i st envs).ranges := by
  induction fuel generalizing i st envs with
  | zero => exact fun x hx => hx
  | succ n ih =>
    by_cases h : i < st.inFlight.length
    · rw [drainLoop_eq_round n i st envs h]
      exact fun x hx => ih _ _ _ (drainRound_ranges_subset st i _ h hx)
    · rw [drainLoop, dif_neg h]; exact fun x hx => hx

theorem drainLoop_ranges_from (fuel i : Nat) (st : PassState) (envs : List (List Nat)) :
    ∀ x ∈ (drainLoop fuel i st envs).ranges,
      x ∈ st.ranges ∨ ∃ t ∈ st.inFlight, t.ok = true ∧ x = t.site := by
  induction fuel generalizing i st envs with
  | zero => exact fun x hx => Or.inl hx
  | succ n ih =>
    by_cases h : i < st.inFlight.length
    · rw [drainLoop_eq_round n i st envs h]
      intro x hx
      rcases ih _ _ _ x hx with hmem | ⟨t, ht, hok, rfl⟩
      · exact drainRound_ranges_from st i _ h x hmem
      · exact Or.inr ⟨t, drainRound_inFlight_subset st i _ h ht, hok, rfl⟩
    · rw [drainLoop, dif_neg h]; exact fun x hx => Or.inl hx

theorem drainLoop_inFlight_subset (fuel i : Nat) (st : PassState) (envs : List (List Nat)) :
    (drainLoop fuel i st envs).inFlight ⊆ st.inFlight := by
  induction fuel generalizing i st envs with
  | zero => exact fun x hx => hx
  | succ n ih =>
    by_cases h : i < st.inFlight.length
    · rw [drainLoop_eq_round n i st envs h]
      exact fun x hx => drainRound_inFlight_subset st i _ h (ih _ _ _ hx)
    · rw [drainLoop, dif_neg h]; exact fun x hx => hx

theorem drainLoop_events_from (fuel i : Nat) (st : PassState) (envs : List (List Nat)) :
    ∀ ev ∈ (drainLoop fuel i st envs).events,
      ev ∈ st.events ∨ ∃ t ∈ st.inFlight, ev = PassEvent.completed t.site t.ok := by
  induction fuel generalizing i st envs with
  | zero => exact fun ev hev => Or.inl hev
  | succ n ih =>
    by_cases h : i < st.inFlight.length
    · rw [drainLoop_eq_round n i st envs h]
      intro ev hev
      rcases ih _ _ _ ev hev with hmem | ⟨t, ht, rfl⟩
      · exact drainRound_events_from st i _ h ev hmem
      · exact Or.inr ⟨t, drainRound_inFlight_subset st i _ h ht, rfl⟩
    · rw [drainLoop, dif_neg h]; exact fun ev hev => Or.inl hev

/-- Ranges only ever grow during the candidate loop. -/
theorem runLoop_ranges_subset (mc mr : Nat) (ns : NameSets) (l : List CallSiteSpan)
    (envs : List AdmitEnv) (st : PassState) :
    st.ranges ⊆ (runLoop mc mr ns st l envs).ranges := by
  induction l generalizing st envs with
  | nil => rw [runLoop]; exact fun x hx => hx
  | cons c cs ih =>
    rw [runLoop]
    cases hdec : decideCandidate ns c with
    | acceptJsx =>
      exact fun x hx =>
        ih envs { st with processed := st.processed ++ [c],
                          ranges := addRange st.ranges (siteOf c) }
          (subset_addRange _ _ hx)
    | acceptLocal =>
      exact fun x hx =>
        ih envs { st with processed := st.processed ++ [c],
                          ranges := addRange st.ranges (siteOf c) }
          (subset_addRange _ _ hx)
    | reject => exact ih envs { st with processed := st.processed ++ [c] }
    | resolve p =>
      simp only
      by_cases hbrk : mr ≤ st.res ∨ (envs.headD defaultAdmitEnv).preTimeUp
      · rw [if_pos hbrk]; exact fun x hx => hx
      · rw [if_neg hbrk]
        set st0 : PassState := { st with processed := st.processed ++ [c] } with hst0
        set e := envs.headD defaultAdmitEnv with he
        set st1 := waitForSlot mc st0.inFlight.length st0 e.waitCompletions with hst1
        by_cases hh : st1.hung = true
        · rw [if_pos hh]
          exact waitForSlot_ranges_subset mc _ st0 _
        · rw [if_neg hh]
          set st2 := admitTask st1 c e.ok with hst2
          set st3 := runCompletions st2 e.postCompletions with hst3
          have hsub : st.ranges ⊆ st3.ranges := by
            intro x hx
            refine runCompletions_ranges_subset st2 _ ?_
            have : st.ranges ⊆ st1.ranges := waitForSlot_ranges_subset mc _ st0 _
            exact this hx
          by_cases hbrk2 : mr ≤ st3.res ∨ e.postTimeUp
          · rw [if_pos hbrk2]; exact hsub
          · rw [if_neg hbrk2]
            exact fun x hx => ih envs.tail st3 (hsub hx)

theorem exists_mem_cons_of {α : Type} {c : α} {cs : List α} {P : α → Prop}
    (h : ∃ d ∈ cs, P d) : ∃ d ∈ c :: cs, P d := by
  rcases h with ⟨d, hd, hP⟩
  exact ⟨d, List.mem_cons_of_mem c hd, hP⟩

/-- Provenance of the candidate loop's outputs: every range comes from the
initial state, an initially-in-flight accepted resolution, or a non-rejected
candidate; every in-flight task from the initial pool or an admitted
resolution-path candidate; every event from the initial log, an
initially-in-flight completion, or a resolution-path candidate's oracle
call / completion. -/
theorem runLoop_from (mc mr : Nat) (ns : NameSets) (l : List CallSiteSpan)
    (envs : List AdmitEnv) (st : PassState) :
    (∀ x ∈ (runLoop mc mr ns st l envs).ranges,
        x ∈ st.ranges ∨ (∃ t ∈ st.inFlight, x = t.site)
          ∨ ∃ c ∈ l, ¬decideCandidate ns c = Decision.reject ∧ x = siteOf c)
    ∧ (∀ t ∈ (runLoop mc mr ns st l envs).inFlight,
        t ∈ st.inFlight
          ∨ ∃ c ∈ l, decideCandidate ns c = Decision.resolve (probeOffset c)
              ∧ t.site = siteOf c)
    ∧ (∀ ev ∈ (runLoop mc mr ns st l envs).events,
        ev ∈ st.events ∨ (∃ t ∈ st.inFlight, ev = PassEvent.completed t.site t.ok)
          ∨ ∃ c ∈ l, decideCandidate ns c = Decision.resolve (probeOffset c)
              ∧ (ev = PassEvent.oracleCall (siteOf c) (probeOffset c)
                  ∨ ∃ b, ev = PassEvent.completed (siteOf c) b)) := by
  induction l generalizing st envs with
  | nil =>
    rw [runLoop]
    exact ⟨fun x hx => Or.inl hx, fun t ht => Or.inl ht, fun ev hev => Or.inl hev⟩
  | cons c cs ih =>
    rw [runLoop]
    cases hdec : decideCandidate ns c with
    | acceptJsx =>
      obtain ⟨ihr, iht, ihe⟩ :=
        ih envs { st with processed := st.processed ++ [c],
                          ranges := addRange st.ranges (siteOf c) }
      refine ⟨fun x hx => ?_, fun t ht => ?_, fun ev hev => ?_⟩
      · rcases ihr x hx with hmem | ⟨t, ht, rfl⟩ | ⟨d, hd, hnd, rfl⟩
        · rcases mem_addRange.mp hmem with hmem2 | rfl
          · exact Or.inl hmem2
          · refine Or.inr (Or.inr ⟨c, List.mem_cons_self c cs, ?_, rfl⟩)
            rw [hdec]; simp
        · exact Or.inr (Or.inl ⟨t, ht, rfl⟩)
        · exact Or.inr (Or.inr ⟨d, List.mem_cons_of_mem c hd, hnd, rfl⟩)
      · rcases iht t ht with hmem | hex
        · exact Or.inl hmem
        · exact Or.inr (exists_mem_cons_of hex)
      · rcases ihe ev hev with hmem | hex | hex
        · exact Or.inl hmem
        · exact Or.inr (Or.inl hex)
        · exact Or.inr (Or.inr (exists_mem_cons_of hex))
    | acceptLocal =>
      obtain ⟨ihr, iht, ihe⟩ :=
        ih envs { st with processed := st.processed ++ [c],
                          ranges := addRange st.ranges (siteOf c) }
      refine ⟨fun x hx => ?_, fun t ht => ?_, fun ev hev => ?_⟩
      · rcases ihr x hx with hmem | ⟨t, ht, rfl⟩ | ⟨d, hd, hnd, rfl⟩
        · rcases mem_addRange.mp hmem with hmem2 | rfl
          · exact Or.inl hmem2
          · refine Or.inr (Or.inr ⟨c, List.mem_cons_self c cs, ?_, rfl⟩)
            rw [hdec]; simp
        · exact Or.inr (Or.inl ⟨t, ht, rfl⟩)
        · exact Or.inr (Or.inr ⟨d, List.mem_cons_of_mem c hd, hnd, rfl⟩)
      · rcases iht t ht with hmem | hex
        · exact Or.inl hmem
        · exact Or.inr (exists_mem_cons_of hex)
      · rcases ihe ev hev with hmem | hex | hex
        · exact Or.inl hmem
        · exact Or.inr (Or.inl hex)
        · exact Or.inr (Or.inr (exists_mem_cons_of hex))
    | reject =>
      obtain ⟨ihr, iht, ihe⟩ := ih envs { st with processed := st.processed ++ [c] }
      refine ⟨fun x hx => ?_, fun t ht => ?_, fun ev hev => ?_⟩
      · rcases ihr x hx with hmem | hex | hex
        · exact Or.inl hmem
        · exact Or.inr (Or.inl hex)
        · exact Or.inr (Or.inr (exists_mem_cons_of hex))
      · rcases iht t ht with hmem | hex
        · exact Or.inl hmem
        · exact Or.inr (exists_mem_cons_of hex)
      · rcases ihe ev hev with hmem | hex | hex
        · exact Or.inl hmem
        · exact Or.inr (Or.inl hex)
        · exact Or.inr (Or.inr (exists_mem_cons_of hex))
    | resolve p =>
      simp only
      have hp : p = probeOffset c := decide_resolve_probe hdec
      subst hp
      by_cases hbrk : mr ≤ st.res ∨ (envs.headD defaultAdmitEnv).preTimeUp
      · rw [if_pos hbrk]
        exact ⟨fun x hx => Or.inl hx, fun t ht => Or.inl ht, fun ev hev => Or.inl hev⟩
      · rw [if_neg hbrk]
        set st0 : PassState := { st with processed := st.processed ++ [c] } with hst0
        set e := envs.headD defaultAdmitEnv with he
        set st1 := waitForSlot mc st0.inFlight.length st0 e.waitCompletions with hst1
        have hr1 : ∀ x ∈ st1.ranges,
            x ∈ st.ranges ∨ ∃ t ∈ st.inFlight, x = t.site := by
          intro x hx
          rcases waitForSlot_ranges_from mc _ st0 _ x hx with hmem | ⟨t, ht, _, rfl⟩
          · exact Or.inl hmem
          · exact Or.inr ⟨t, ht, rfl⟩
        have hf1 : st1.inFlight ⊆ st.inFlight := waitForSlot_inFlight_subset mc _ st0 _
        have he1 : ∀ ev ∈ st1.events,
            ev ∈ st.events ∨ ∃ t ∈ st.inFlight, ev = PassEvent.completed t.site t.ok :=
          waitForSlot_events_from mc _ st0 _
        by_cases hh : st1.hung = true
        · rw [if_pos hh]
          refine ⟨fun x hx => ?_, fun t ht => Or.inl (hf1 ht), fun ev hev => ?_⟩
          · rcases hr1 x hx with hmem | hex
            · exact Or.inl hmem
            · exact Or.inr (Or.inl hex)
          · rcases he1 ev hev with hmem | hex
            · exact Or.inl hmem
            · exact Or.inr (Or.inl hex)
        · rw [if_neg hh]
          set st2 := admitTask st1 c e.ok with hst2
          set st3 := runCompletions st2 e.postCompletions with hst3
          -- Facts about st2: same ranges, pool extended with the new task,
          -- events extended with the oracle call.
          have hr2 : ∀ x ∈ st2.ranges, x ∈ st.ranges ∨ ∃ t ∈ st.inFlight, x = t.site := hr1
          have hf2 : ∀ t ∈ st2.inFlight,
              t ∈ st.inFlight ∨ t.site = siteOf c := by
            intro t ht
            rw [hst2] at ht
            simp only [admitTask, List.mem_append, List.mem_singleton] at ht
            rcases ht with ht | rfl
            · exact Or.inl (hf1 ht)
            · exact Or.inr rfl
          have he2 : ∀ ev ∈ st2.events,
              ev ∈ st.events ∨ (∃ t ∈ st.inFlight, ev = PassEvent.completed t.site t.ok)
                ∨ ev = PassEvent.oracleCall (siteOf c) (probeOffset c) := by
            intro ev hev
            rw [hst2] at hev
            simp only [admitTask, List.mem_append, List.mem_singleton] at hev
            rcases hev with hev | rfl
            · rcases he1 ev hev with hmem | hex
              · exact Or.inl hmem
              · exact Or.inr (Or.inl hex)
            · exact Or.inr (Or.inr rfl)
          have hr3 : ∀ x ∈ st3.ranges,
              x ∈ st.ranges ∨ (∃ t ∈ st.inFlight, x = t.site) ∨ x = siteOf c := by
            intro x hx
            rcases runCompletions_ranges_from st2 _ x hx with hmem | ⟨t, ht, _, rfl⟩
            · rcases hr2 x hmem with hmem2 | hex
              · exact Or.inl hmem2
              · exact Or.inr (Or.inl hex)
            · rcases hf2 t ht with hmem2 | hsite
              · exact Or.inr (Or.inl ⟨t, hmem2, rfl⟩)
              · exact Or.inr (Or.inr hsite)
          have hf3 : ∀ t ∈ st3.inFlight, t ∈ st.inFlight ∨ t.site = siteOf c :=
            fun t ht => hf2 t (runCompletions_inFlight_subset st2 _ ht)
          have he3 : ∀ ev ∈ st3.events,
              ev ∈ st.events ∨ (∃ t ∈ st.inFlight, ev = PassEvent.completed t.site t.ok)
                ∨ ev = PassEvent.oracleCall (siteOf c) (probeOffset c)
                ∨ ∃ b, ev = PassEvent.completed (siteOf c) b := by
            intro ev hev
            rcases runCompletions_events_from st2 _ ev hev with hmem | ⟨t, ht, rfl⟩
            · rcases he2 ev hmem with hmem2 | hex | hoc
              · exact Or.inl hmem2
              · exact Or.inr (Or.inl hex)
              · exact Or.inr (Or.inr (Or.inl hoc))
            · rcases hf2 t ht with hmem2 | hsite
              · exact Or.inr (Or.inl ⟨t, hmem2, rfl⟩)
              · exact Or.inr (Or.inr (Or.inr ⟨t.ok, by rw [hsite]⟩))
          have hcc : c ∈ c :: cs := List.mem_cons_self c cs
          have pack : ∀ stx : PassState,
              (∀ x ∈ stx.ranges,
                  x ∈ st.ranges ∨ (∃ t ∈ st.inFlight, x = t.site) ∨ x = siteOf c)
              → (∀ t ∈ stx.inFlight, t ∈ st.inFlight ∨ t.site = siteOf c)
              → (∀ ev ∈ stx.events,
                  ev ∈ st.events ∨ (∃ t ∈ st.inFlight, ev = PassEvent.completed t.site t.ok)
                    ∨ ev = PassEvent.oracleCall (siteOf c) (probeOffset c)
                    ∨ ∃ b, ev = PassEvent.completed (siteOf c) b)
              → (∀ x ∈ stx.ranges,
                    x ∈ st.ranges ∨ (∃ t ∈ st.inFlight, x = t.site)
                      ∨ ∃ d ∈ c :: cs, ¬decideCandidate ns d = Decision.reject
                          ∧ x = siteOf d)
                ∧ (∀ t ∈ stx.inFlight,
                    t ∈ st.inFlight
                      ∨ ∃ d ∈ c :: cs, decideCandidate ns d = Decision.resolve (probeOffset d)
                          ∧ t.site = siteOf d)
                ∧ (∀ ev ∈ stx.events,
                    ev ∈ st.events
                      ∨ (∃ t ∈ st.inFlight, ev = PassEvent.completed t.site t.ok)
                      ∨ ∃ d ∈ c :: cs, decideCandidate ns d = Decision.resolve (probeOffset d)
                          ∧ (ev = PassEvent.oracleCall (siteOf d) (probeOffset d)
                              ∨ ∃ b, ev = PassEvent.completed (siteOf d) b)) := by
            intro stx hxr hxf hxe
            refine ⟨fun x hx => ?_, fun t ht => ?_, fun ev hev => ?_⟩
            · rcases hxr x hx with hmem | hex | rfl
              · exact Or.inl hmem
              · exact Or.inr (Or.inl hex)
              · exact Or.inr (Or.inr ⟨c, hcc, by rw [hdec]; simp, rfl⟩)
            · rcases hxf t ht with hmem | hsite
              · exact Or.inl hmem
              · exact Or.inr ⟨c, hcc, hdec, hsite⟩
            · rcases hxe ev hev with hmem | hex | hoc | hcomp
              · exact Or.inl hmem
              · exact Or.inr (Or.inl hex)
              · exact Or.inr (Or.inr ⟨c, hcc, hdec, Or.inl hoc⟩)
              · exact Or.inr (Or.inr ⟨c, hcc, hdec, Or.inr hcomp⟩)
          by_cases hbrk2 : mr ≤ st3.res ∨ e.postTimeUp
          · rw [if_pos hbrk2]
            exact pack st3 hr3 hf3 he3
          · rw [if_neg hbrk2]
            obtain ⟨ihr, iht, ihe⟩ := ih envs.tail st3
            refine ⟨fun x hx => ?_, fun t ht => ?_, fun ev hev => ?_⟩
            · rcases ihr x hx with hmem | ⟨t, ht, rfl⟩ | ⟨d, hd, hnd, rfl⟩
              · exact (pack st3 hr3 hf3 he3).1 x hmem
              · rcases hf3 t ht with hmem2 | hsite
                · exact Or.inr (Or.inl ⟨t, hmem2, rfl⟩)
                · refine Or.inr (Or.inr ⟨c, hcc, ?_, hsite⟩)
                  rw [hdec]; simp
              · exact Or.inr (Or.inr ⟨d, List.mem_cons_of_mem c hd, hnd, rfl⟩)
            · rcases iht t ht with hmem | ⟨d, hd, hddec, hsite⟩
              · rcases hf3 t hmem with hmem2 | hsite
                · exact Or.inl hmem2
                · exact Or.inr ⟨c, hcc, hdec, hsite⟩
              · exact Or.inr ⟨d, List.mem_cons_of_mem c hd, hddec, hsite⟩
            · rcases ihe ev hev with hmem | ⟨t, ht, rfl⟩ | ⟨d, hd, hddec, hev2⟩
              · exact (pack st3 hr3 hf3 he3).2.2 ev hmem
              · rcases hf3 t ht with hmem2 | hsite
                · exact Or.inr (Or.inl ⟨t, hmem2, rfl⟩)
                · exact Or.inr (Or.inr ⟨c, hcc, hdec, Or.inr ⟨t.ok, by rw [hsite]⟩⟩)
              · exact Or.inr (Or.inr ⟨d, List.mem_cons_of_mem c hd, hddec, hev2⟩)

/-- Synchronously-accepted candidates stay accepted: every processed candidate
whose decision is JSX acceptance or the local short-circuit has its site in the
range list, an invariant the loop maintains. -/
theorem runLoop_processed_accept (mc mr : Nat) (ns : NameSets) (l : List CallSiteSpan)
    (envs : List AdmitEnv) (st : PassState)
    (hP : ∀ c ∈ st.processed,
      (decideCandidate ns c = Decision.acceptJsx
        ∨ decideCandidate ns c = Decision.acceptLocal) → siteOf c ∈ st.ranges) :
    ∀ c ∈ (runLoop mc mr ns st l envs).processed,
      (decideCandidate ns c = Decision.acceptJsx
        ∨ decideCandidate ns c = Decision.acceptLocal)
      → siteOf c ∈ (runLoop mc mr ns st l envs).ranges := by
  induction l generalizing st envs with
  | nil => rw [runLoop]; exact hP
  | cons c cs ih =>
    rw [runLoop]
    cases hdec : decideCandidate ns c with
    | acceptJsx =>
      refine ih envs { st with processed := st.processed ++ [c],
                               ranges := addRange st.ranges (siteOf c) } ?_
      intro d hd hgood
      simp only [List.mem_append, List.mem_singleton] at hd
      rcases hd with hd | rfl
      · exact subset_addRange _ _ (hP d hd hgood)
      · exact mem_addRange_self _ _
    | acceptLocal =>
      refine ih envs { st with processed := st.processed ++ [c],
                               ranges := addRange st.ranges (siteOf c) } ?_
      intro d hd hgood
      simp only [List.mem_append, List.mem_singleton] at hd
      rcases hd with hd | rfl
      · exact subset_addRange _ _ (hP d hd hgood)
      · exact mem_addRange_self _ _
    | reject =>
      refine ih envs { st with processed := st.processed ++ [c] } ?_
      intro d hd hgood
      simp only [List.mem_append, List.mem_singleton] at hd
      rcases hd with hd | rfl
      · exact hP d hd hgood
      · rw [hdec] at hgood
        rcases hgood with h | h <;> exact absurd h (by simp)
    | resolve p =>
      simp only
      set st0 : PassState := { st with processed := st.processed ++ [c] } with hst0
      have hP0 : ∀ d ∈ st0.processed,
          (decideCandidate ns d = Decision.acceptJsx
            ∨ decideCandidate ns d = Decision.acceptLocal) → siteOf d ∈ st0.ranges := by
        intro d hd hgood
        rw [hst0] at hd
        simp only [List.mem_append, List.mem_singleton] at hd
        rcases hd with hd | rfl
        · exact hP d hd hgood
        · rw [hdec] at hgood
          rcases hgood with h | h <;> exact absurd h (by simp)
      by_cases hbrk : mr ≤ st.res ∨ (envs.headD defaultAdmitEnv).preTimeUp
      · rw [if_pos hbrk]; exact hP0
      · rw [if_neg hbrk]
        set e := envs.headD defaultAdmitEnv with he
        set st1 := waitForSlot mc st0.inFlight.length st0 e.waitCompletions with hst1
        have hP1 : ∀ d ∈ st1.processed,
            (decideCandidate ns d = Decision.acceptJsx
              ∨ decideCandidate ns d = Decision.acceptLocal) → siteOf d ∈ st1.ranges := by
          intro d hd hgood
          rw [hst1, waitForSlot_processed] at hd
          exact waitForSlot_ranges_subset mc _ st0 _ (hP0 d hd hgood)
        by_cases hh : st1.hung = true
        · rw [if_pos hh]; exact hP1
        · rw [if_neg hh]
          set st2 := admitTask st1 c e.ok with hst2
          set st3 := runCompletions st2 e.postCompletions with hst3
          have hP3 : ∀ d ∈ st3.processed,
              (decideCandidate ns d = Decision.acceptJsx
                ∨ decideCandidate ns d = Decision.acceptLocal) → siteOf d ∈ st3.ranges := by
            intro d hd hgood
            rw [hst3, runCompletions_processed] at hd
            have hd2 : d ∈ st1.processed := hd
            refine runCompletions_ranges_subset st2 _ ?_
            exact hP1 d hd2 hgood
          by_cases hbrk2 : mr ≤ st3.res ∨ e.postTimeUp
          · rw [if_pos hbrk2]; exact hP3
          · rw [if_neg hbrk2]
            exact ih envs.tail st3 hP3

/-- Sum invariant: every oracle call is either a completed resolution or still
in flight. -/
theorem runLoop_sum_inv (mc mr : Nat) (ns : NameSets) (l : List CallSiteSpan)
    (envs : List AdmitEnv) (st : PassState)
    (hsum : st.calls = st.res + st.inFlight.length) :
    (runLoop mc mr ns st l envs).calls
      = (runLoop mc mr ns st l envs).res + (runLoop mc mr ns st l envs).inFlight.length := by
  induction l generalizing st envs with
  | nil => rw [runLoop]; exact hsum
  | cons c cs ih =>
    rw [runLoop]
    cases hdec : decideCandidate ns c with
    | acceptJsx =>
      exact ih envs { st with processed := st.processed ++ [c],
                              ranges := addRange st.ranges (siteOf c) } hsum
    | acceptLocal =>
      exact ih envs { st with processed := st.processed ++ [c],
                              ranges := addRange st.ranges (siteOf c) } hsum
    | reject => exact ih envs { st with processed := st.processed ++ [c] } hsum
    | resolve p =>
      simp only
      set st0 : PassState := { st with processed := st.processed ++ [c] } with hst0
      by_cases hbrk : mr ≤ st.res ∨ (envs.headD defaultAdmitEnv).preTimeUp
      · rw [if_pos hbrk]; exact hsum
      · rw [if_neg hbrk]
        set e := envs.headD defaultAdmitEnv with he
        set st1 := waitForSlot mc st0.inFlight.length st0 e.waitCompletions with hst1
        have hsum1 : st1.calls = st1.res + st1.inFlight.length := by
          rw [hst1, waitForSlot_calls, waitForSlot_sum]
          exact hsum
        by_cases hh : st1.hung = true
        · rw [if_pos hh]; exact hsum1
        · rw [if_neg hh]
          set st2 := admitTask st1 c e.ok with hst2
          have hsum2 : st2.calls = st2.res + st2.inFlight.length := by
            rw [hst2, admitTask_calls, admitTask_res, admitTask_len, hsum1]
            omega
          set st3 := runCompletions st2 e.postCompletions with hst3
          have hsum3 : st3.calls = st3.res + st3.inFlight.length := by
            rw [hst3, runCompletions_calls, runCompletions_sum]
            exact hsum2
          by_cases hbrk2 : mr ≤ st3.res ∨ e.postTimeUp
          · rw [if_pos hbrk2]; exact hsum3
          · rw [if_neg hbrk2]; exact ih envs.tail st3 hsum3

theorem drainRound_sum (st : PassState) (i : Nat) (extras : List Nat)
    (h : i < st.inFlight.length) :
    (drainRound st i extras h).res + (drainRound st i extras h).inFlight.length
      = st.res + st.inFlight.length := by
  unfold drainRound
  split
  · rw [completeAt_sum, runCompletions_sum]
  · rw [runCompletions_sum]

theorem drainLoop_sum (fuel i : Nat) (st : PassState) (envs : List (List Nat)) :
    (drainLoop fuel i st envs).res + (drainLoop fuel i st envs).inFlight.length
      = st.res + st.inFlight.length := by
  induction fuel generalizing i st envs with
  | zero => rfl
  | succ n ih =>
    by_cases h : i < st.inFlight.length
    · rw [drainLoop_eq_round n i st envs h, ih, drainRound_sum]
    · rw [drainLoop, dif_neg h]

/-!
## Event counting (for the resolution-counter claims)
-/

def isOracleCallEv : PassEvent → Bool
  | PassEvent.oracleCall _ _ => true
  | _ => false

def isCompletedEv : PassEvent → Bool
  | PassEvent.completed _ _ => true
  | _ => false

def countOracle (evs : List PassEvent) : Nat := (evs.filter isOracleCallEv).length

def countCompleted (evs : List PassEvent) : Nat := (evs.filter isCompletedEv).length

/-- Event-counter coherence: `calls` counts the oracle-call events and the
`resolutions` counter counts the completion events. -/
def EvCount (st : PassState) : Prop :=
  st.calls = countOracle st.events ∧ st.res = countCompleted st.events

theorem countOracle_append (a b : List PassEvent) :
    countOracle (a ++ b) = countOracle a + countOracle b := by
  unfold countOracle
  rw [List.filter_append, List.length_append]

theorem countCompleted_append (a b : List PassEvent) :
    countCompleted (a ++ b) = countCompleted a + countCompleted b := by
  unfold countCompleted
  rw [List.filter_append, List.length_append]

theorem evCount_completeAt {st : PassState} (h : EvCount st) (i : Nat) :
    EvCount (completeAt st i) := by
  unfold completeAt
  cases hi : st.inFlight[i]? with
  | none => exact h
  | some t =>
    refine ⟨?_, ?_⟩
    · simp only [countOracle_append]
      have : countOracle [PassEvent.completed t.site t.ok] = 0 := by
        simp [countOracle, List.filter, isOracleCallEv]
      rw [this, Nat.add_zero]
      exact h.1
    · simp only [countCompleted_append]
      have : countCompleted [PassEvent.completed t.site t.ok] = 1 := by
        simp [countCompleted, List.filter, isCompletedEv]
      rw [this, h.2]

theorem evCount_admitTask {st : PassState} (h : EvCount st) (c : CallSiteSpan) (ok : Bool) :
    EvCount (admitTask st c ok) := by
  unfold admitTask
  refine ⟨?_, ?_⟩
  · simp only [countOracle_append]
    have : countOracle [PassEvent.oracleCall (siteOf c) (probeOffset c)] = 1 := by
      simp [countOracle, List.filter, isOracleCallEv]
    rw [this, h.1]
  · simp only [countCompleted_append]
    have : countCompleted [PassEvent.oracleCall (siteOf c) (probeOffset c)] = 0 := by
      simp [countCompleted, List.filter, isCompletedEv]
    rw [this, Nat.add_zero]
    exact h.2

theorem evCount_runCompletions {st : PassState} (h : EvCount st) (l : List Nat) :
    EvCount (runCompletions st l) := by
  induction l generalizing st with
  | nil => exact h
  | cons i l ih => rw [runCompletions_cons]; exact ih (evCount_completeAt h i)

theorem evCount_waitForSlot {st : PassState} (h : EvCount st) (mc fuel : Nat) (w : List Nat) :
    EvCount (waitForSlot mc fuel st w) := by
  induction fuel generalizing st w with
  | zero =>
    rw [waitForSlot]; split
    · exact h
    · exact ⟨h.1, h.2⟩
  | succ n ih =>
    rw [waitForSlot]
    split
    · exact h
    · split
      · exact ⟨h.1, h.2⟩
      · exact ih (evCount_completeAt h _) _

theorem evCount_runLoop (st : PassState) (h : EvCount st) (mc mr : Nat) (ns : NameSets)
    (l : List CallSiteSpan) (envs : List AdmitEnv) :
    EvCount (runLoop mc mr ns st l envs) := by
  induction l generalizing st envs with
  | nil => rw [runLoop]; exact h
  | cons c cs ih =>
    rw [runLoop]
    cases hdec : decideCandidate ns c with
    | acceptJsx =>
      exact ih { st with processed := st.processed ++ [c],
                         ranges := addRange st.ranges (siteOf c) } ⟨h.1, h.2⟩ envs
    | acceptLocal =>
      exact ih { st with processed := st.processed ++ [c],
                         ranges := addRange st.ranges (siteOf c) } ⟨h.1, h.2⟩ envs
    | reject =>
      exact ih { st with processed := st.processed ++ [c] } ⟨h.1, h.2⟩ envs
    | resolve p =>
      simp only
      set st0 : PassState := { st with processed := st.processed ++ [c] } with hst0
      have h0 : EvCount st0 := ⟨h.1, h.2⟩
      by_cases hbrk : mr ≤ st.res ∨ (envs.headD defaultAdmitEnv).preTimeUp
      · rw [if_pos hbrk]; exact h0
      · rw [if_neg hbrk]
        set e := envs.headD defaultAdmitEnv with he
        set st1 := waitForSlot mc st0.inFlight.length st0 e.waitCompletions with hst1
        have h1 : EvCount st1 := evCount_waitForSlot h0 mc _ _
        by_cases hh : st1.hung = true
        · rw [if_pos hh]; exact h1
        · rw [if_neg hh]
          set st3 := runCompletions (admitTask st1 c e.ok) e.postCompletions with hst3
          have h3 : EvCount st3 := evCount_runCompletions (evCount_admitTask h1 c e.ok) _
          by_cases hbrk2 : mr ≤ st3.res ∨ e.postTimeUp
          · rw [if_pos hbrk2]; exact h3
          · rw [if_neg hbrk2]; exact ih st3 h3 envs.tail

theorem evCount_drainLoop {st : PassState} (h : EvCount st) (fuel i : Nat)
    (envs : List (List Nat)) : EvCount (drainLoop fuel i st envs) := by
  induction fuel generalizing i st envs with
  | zero => exact h
  | succ n ih =>
    by_cases hlt : i < st.inFlight.length
    · rw [drainLoop_eq_round n i st envs hlt]
      refine ih ?_ _ _
      unfold drainRound
      split
      · exact evCount_completeAt (evCount_runCompletions h _) _
      · exact evCount_runCompletions h _
    · rw [drainLoop, dif_neg hlt]; exact h

/-- With the cancellation signal raised before the pass, the (spec-modelled) loop
admits nothing: counters, pool and event log stay untouched, and only
synchronously-accepted candidate sites can join the ranges. -/
theorem runLoopSignal_true (mc mr : Nat) (ns : NameSets) (l : List CallSiteSpan)
    (envs : List AdmitEnv) (st : PassState) :
    (runLoopSignal true mc mr ns st l envs).calls = st.calls
    ∧ (runLoopSignal true mc mr ns st l envs).inFlight = st.inFlight
    ∧ (runLoopSignal true mc mr ns st l envs).events = st.events
    ∧ (runLoopSignal true mc mr ns st l envs).res = st.res
    ∧ (∀ x ∈ (runLoopSignal true mc mr ns st l envs).ranges,
        x ∈ st.ranges
          ∨ ∃ c ∈ l, (decideCandidate ns c = Decision.acceptJsx
              ∨ decideCandidate ns c = Decision.acceptLocal) ∧ x = siteOf c) := by
  induction l generalizing st envs with
  | nil =>
    rw [runLoopSignal]
    exact ⟨rfl, rfl, rfl, rfl, fun x hx => Or.inl hx⟩
  | cons c cs ih =>
    rw [runLoopSignal]
    cases hdec : decideCandidate ns c with
    | acceptJsx =>
      obtain ⟨h1, h2, h3, h4, h5⟩ :=
        ih envs { st with processed := st.processed ++ [c],
                          ranges := addRange st.ranges (siteOf c) }
      refine ⟨h1, h2, h3, h4, fun x hx => ?_⟩
      rcases h5 x hx with hmem | hex
      · rcases mem_addRange.mp hmem with hmem2 | rfl
        · exact Or.inl hmem2
        · exact Or.inr ⟨c, List.mem_cons_self c cs, Or.inl hdec, rfl⟩
      · exact Or.inr (exists_mem_cons_of hex)
    | acceptLocal =>
      obtain ⟨h1, h2, h3, h4, h5⟩ :=
        ih envs { st with processed := st.processed ++ [c],
                          ranges := addRange st.ranges (siteOf c) }
      refine ⟨h1, h2, h3, h4, fun x hx => ?_⟩
      rcases h5 x hx with hmem | hex
      · rcases mem_addRange.mp hmem with hmem2 | rfl
        · exact Or.inl hmem2
        · exact Or.inr ⟨c, List.mem_cons_self c cs, Or.inr hdec, rfl⟩
      · exact Or.inr (exists_mem_cons_of hex)
    | reject =>
      obtain ⟨h1, h2, h3, h4, h5⟩ := ih envs { st with processed := st.processed ++ [c] }
      refine ⟨h1, h2, h3, h4, fun x hx => ?_⟩
      rcases h5 x hx with hmem | hex
      · exact Or.inl hmem
      · exact Or.inr (exists_mem_cons_of hex)
    | resolve p =>
      exact ⟨rfl, rfl, rfl, rfl, fun x hx => Or.inl hx⟩

/-!
## The definition extractor (`src/core/definitions.ts`)

`scanServerActions` walks the TypeScript syntax tree (`ts.createSourceFile` is
the modelling boundary; the tree is the input here).  The datatypes cover the
node shapes the extractor discriminates on:

* `Expr.fnLit` — arrow functions and function expressions (the extractor treats
  both identically everywhere);
* `Expr.strLit` — string-literal-likes (directive candidates);
* `Expr.exprNode` — every other expression, with its child expressions;
* `Stmt.fnDecl` / `Stmt.varStmt` — function declarations and variable
  statements with their `export` (and `default`) modifiers;
* `Stmt.exprStmt` / `Stmt.otherStmt` — expression statements and all other
  statements with their child expressions/statements.

Offsets appear only where the extractor reads them: function-body spans and
identifier spans.
-/

mutual
inductive Expr where
  | strLit (s : String)
  | fnLit (isAsync : Bool) (body : FnBody)
  | exprNode (children : List Expr)
inductive FnBody where
  | block (start stop : Nat) (stmts : List Stmt)
  | exprBody (start stop : Nat) (e : Expr)
inductive VarDecl where
  | mk (name : Option String) (nameStart nameEnd : Nat) (init : Option Expr)
inductive Stmt where
  | fnDecl (exported isDefault isAsync : Bool) (name : Option String)
      (nameStart nameEnd : Nat) (body : Option FnBody)
  | varStmt (exported : Bool) (decls : List VarDecl)
  | exprStmt (e : Expr)
  | otherStmt (exprs : List Expr) (stmts : List Stmt)
end

/-- `isUseServerPrologue`: scan the leading directive statements (expression
statements of string literals); `true` at the first whose text is
`use server`, skipping other directives, stopping at the first
non-directive statement. -/
def isUseServerPrologue : List Stmt → Bool
  | Stmt.exprStmt (Expr.strLit s) :: rest =>
      if s = "use server" then true else isUseServerPrologue rest
  | _ => false

/-- `hasUseServerInFunctionBody`: a function body that is a block whose prologue
has the directive; expression-bodied arrows cannot carry directives. -/
def hasUseServerInFunctionBody : Option FnBody → Bool
  | some (FnBody.block _ _ stmts) => isUseServerPrologue stmts
  | _ => false

/-- `getBodySpan`: the body's text range (block braces included), `undefined`
for a bodyless declaration. -/
def getBodySpan : Option FnBody → Option (Nat × Nat)
  | some (FnBody.block s e _) => some (s, e)
  | some (FnBody.exprBody s e _) => some (s, e)
  | none => none

/-- One visit of a function-like node by one of the walk's handlers, before the
eligibility test: the name it would be reported under, the `export` status of
its context, its `async` flag, its body-prologue directive flag, its body span,
and its identifier span. -/
structure FnOcc where
  name : String
  exported : Bool
  isAsync : Bool
  bodyUse : Bool
  bodySpan : Option (Nat × Nat)
  nameStart : Option Nat
  nameEnd : Option Nat
deriving DecidableEq, Repr

/-- The name a function declaration is reported under:
`nameId?.text ?? (exported && default ? 'default' : '(anonymous)')`. -/
def fnDeclName (exported isDefault : Bool) (name : Option String) : String :=
  match name with
  | some n => n
  | none => if exported && isDefault then "default" else "(anonymous)"

/-- Handler visit for a function declaration. -/
def fnDeclOcc (exported isDefault isAsync : Bool) (name : Option String)
    (nameStart nameEnd : Nat) (body : Option FnBody) : FnOcc :=
  { name := fnDeclName exported isDefault name
    exported := exported
    isAsync := isAsync
    bodyUse := hasUseServerInFunctionBody body
    bodySpan := getBodySpan body
    nameStart := match name with | some _ => some nameStart | none => none
    nameEnd := match name with | some _ => some nameEnd | none => none }

/-- Handler visit for a function literal found under a variable declaration
(direct assignment or the nested `visit`): reported under the variable's
name and identifier span, in the variable statement's export context. -/
def varFnOcc (exported : Bool) (nm : String) (ns ne : Nat) (isAsync : Bool)
    (body : FnBody) : FnOcc :=
  { name := nm
    exported := exported
    isAsync := isAsync
    bodyUse := hasUseServerInFunctionBody (some body)
    bodySpan := getBodySpan (some body)
    nameStart := some ns
    nameEnd := some ne }

/-- Handler visit for the generic inline rule: any function literal anywhere,
reported as `(inline)` with no export context. -/
def inlineOcc (isAsync : Bool) (body : FnBody) : FnOcc :=
  { name := "(inline)"
    exported := false
    isAsync := isAsync
    bodyUse := hasUseServerInFunctionBody (some body)
    bodySpan := getBodySpan (some body)
    nameStart := none
    nameEnd := none }

mutual
/-- The main `walk` over a statement: node handlers first (function-declaration
handler, variable-statement handler), then `ts.forEachChild` recursion. -/
def rawStmt : Stmt → List FnOcc
  | Stmt.fnDecl exported isDefault isAsync name ns ne body =>
      fnDeclOcc exported isDefault isAsync name ns ne body :: rawFnBodyOpt body
  | Stmt.varStmt exported decls => rawVarHandler exported decls ++ rawVarChildren decls
  | Stmt.exprStmt e => rawExpr e
  | Stmt.otherStmt exprs stmts => rawExprs exprs ++ rawStmts stmts

def rawStmts : List Stmt → List FnOcc
  | [] => []
  | s :: rest => rawStmt s ++ rawStmts rest

/-- The main walk over an expression: the generic inline handler fires on every
function literal, then recursion continues into children. -/
def rawExpr : Expr → List FnOcc
  | Expr.strLit _ => []
  | Expr.fnLit isAsync body => inlineOcc isAsync body :: rawFnBody body
  | Expr.exprNode children => rawExprs children

def rawExprs : List Expr → List FnOcc
  | [] => []
  | e :: rest => rawExpr e ++ rawExprs rest

def rawFnBody : FnBody → List FnOcc
  | FnBody.block _ _ stmts => rawStmts stmts
  | FnBody.exprBody _ _ e => rawExpr e

def rawFnBodyOpt : Option FnBody → List FnOcc
  | some b => rawFnBody b
  | none => []

/-- The variable-statement handler: per declaration with an identifier name and
an initializer, the direct function/arrow branch and then the nested `visit`
of the whole initializer tree. -/
def rawVarHandler (exported : Bool) : List VarDecl → List FnOcc
  | [] => []
  | VarDecl.mk (some nm) ns ne (some init) :: rest =>
      (match init with
       | Expr.fnLit isAsync body => [varFnOcc exported nm ns ne isAsync body]
       | _ => []) ++ varVisit exported nm ns ne init ++ rawVarHandler exported rest
  | VarDecl.mk _ _ _ _ :: rest => rawVarHandler exported rest

/-- `ts.forEachChild` recursion of the main walk into the declarations'
initializers (fires the generic inline handler a second time on the same
literals — deduplicated downstream). -/
def rawVarChildren : List VarDecl → List FnOcc
  | [] => []
  | VarDecl.mk _ _ _ (some init) :: rest => rawExpr init ++ rawVarChildren rest
  | VarDecl.mk _ _ _ none :: rest => rawVarChildren rest

/-- The `visit` closure of the variable-statement handler: every function
literal anywhere under the initializer is a visit in the variable's name and
export context; recursion goes through all children. -/
def varVisit (exported : Bool) (nm : String) (ns ne : Nat) : Expr → List FnOcc
  | Expr.strLit _ => []
  | Expr.fnLit isAsync body =>
      varFnOcc exported nm ns ne isAsync body :: varVisitFnBody exported nm ns ne body
  | Expr.exprNode children => varVisitExprs exported nm ns ne children

def varVisitExprs (exported : Bool) (nm : String) (ns ne : Nat) : List Expr → List FnOcc
  | [] => []
  | e :: rest => varVisit exported nm ns ne e ++ varVisitExprs exported nm ns ne rest

def varVisitFnBody (exported : Bool) (nm : String) (ns ne : Nat) : FnBody → List FnOcc
  | FnBody.block _ _ stmts => varVisitStmts exported nm ns ne stmts
  | FnBody.exprBody _ _ e => varVisit exported nm ns ne e

def varVisitStmt (exported : Bool) (nm : String) (ns ne : Nat) : Stmt → List FnOcc
  | Stmt.fnDecl _ _ _ _ _ _ body => varVisitFnBodyOpt exported nm ns ne body
  | Stmt.varStmt _ decls => varVisitDecls exported nm ns ne decls
  | Stmt.exprStmt e => varVisit exported nm ns ne e
  | Stmt.otherStmt exprs stmts =>
      varVisitExprs exported nm ns ne exprs ++ varVisitStmts exported nm ns ne stmts

def varVisitStmts (exported : Bool) (nm : String) (ns ne : Nat) : List Stmt → List FnOcc
  | [] => []
  | s :: rest => varVisitStmt exported nm ns ne s ++ varVisitStmts exported nm ns ne rest

def varVisitFnBodyOpt (exported : Bool) (nm : String) (ns ne : Nat) :
    Option FnBody → List FnOcc
  | some b => varVisitFnBody exported nm ns ne b
  | none => []

def varVisitDecls (exported : Bool) (nm : String) (ns ne : Nat) : List VarDecl → List FnOcc
  | [] => []
  | VarDecl.mk _ _ _ (some init) :: rest =>
      varVisit exported nm ns ne init ++ varVisitDecls exported nm ns ne rest
  | VarDecl.mk _ _ _ none :: rest => varVisitDecls exported nm ns ne rest
end

/-- The `eligible` test (uniform across the three handlers) and the guarded
`pushAction`: async, and either exported with the module marker or the body
marker, or non-exported with the body marker; pushed only when a body span
exists. -/
def pushIfEligible (mu : Bool) (occ : FnOcc) : Option ServerActionSpan :=
  if occ.isAsync
      && ((occ.exported && (mu || occ.bodyUse)) || (!occ.exported && occ.bodyUse)) then
    match occ.bodySpan with
    | some (s, e) =>
        some { name := occ.name, bodyStart := s, bodyEnd := e,
               nameStart := occ.nameStart, nameEnd := occ.nameEnd }
    | none => none
  else none

/-- The `seen`-set dedup of `pushAction`, keyed by `bodyStart:bodyEnd`. -/
def dedupGo (seen : List (Nat × Nat)) : List ServerActionSpan → List ServerActionSpan
  | [] => []
  | it :: rest =>
    if (it.bodyStart, it.bodyEnd) ∈ seen then dedupGo seen rest
    else it :: dedupGo ((it.bodyStart, it.bodyEnd) :: seen) rest

def dedupBySpan (l : List ServerActionSpan) : List ServerActionSpan := dedupGo [] l

/-- `scanServerActions`: module prologue check, walk with handler visits,
eligibility filter, span dedup. -/
def scanServerActions (m : List Stmt) : List ServerActionSpan :=
  dedupBySpan ((rawStmts m).filterMap (pushIfEligible (isUseServerPrologue m)))

theorem dedupGo_spanMem (l : List ServerActionSpan) (seen : List (Nat × Nat)) (s e : Nat) :
    (∃ it ∈ dedupGo seen l, it.bodyStart = s ∧ it.bodyEnd = e)
      ↔ ((s, e) ∉ seen ∧ ∃ it ∈ l, it.bodyStart = s ∧ it.bodyEnd = e) := by
  induction l generalizing seen with
  | nil => simp [dedupGo]
  | cons it rest ih =>
    rw [dedupGo]
    by_cases hk : (it.bodyStart, it.bodyEnd) ∈ seen
    · rw [if_pos hk, ih]
      constructor
      · rintro ⟨hns, hex⟩
        exact ⟨hns, exists_mem_cons_of hex⟩
      · rintro ⟨hns, x, hx, hsx, hex⟩
        rcases List.mem_cons.mp hx with rfl | hx2
        · exact absurd (hsx ▸ hex ▸ hk) hns
        · exact ⟨hns, x, hx2, hsx, hex⟩
    · rw [if_neg hk]
      constructor
      · rintro ⟨x, hx, hsx, hex⟩
        rcases List.mem_cons.mp hx with rfl | hx2
        · exact ⟨hsx ▸ hex ▸ hk, x, List.mem_cons_self _ _, hsx, hex⟩
        · obtain ⟨hns, y, hy, hsy, hey⟩ := (ih _).mp ⟨x, hx2, hsx, hex⟩
          refine ⟨fun hc => hns (List.mem_cons_of_mem _ hc), y, List.mem_cons_of_mem _ hy,
            hsy, hey⟩
      · rintro ⟨hns, x, hx, hsx, hex⟩
        rcases List.mem_cons.mp hx with rfl | hx2
        · exact ⟨x, List.mem_cons_self _ _, hsx, hex⟩
        · by_cases hkey : (s, e) = (it.bodyStart, it.bodyEnd)
          · have h1 : s = it.bodyStart := congrArg Prod.fst hkey
            have h2 : e = it.bodyEnd := congrArg Prod.snd hkey
            exact ⟨it, List.mem_cons_self _ _, h1.symm, h2.symm⟩
          · refine exists_mem_cons_of ((ih _).mpr ⟨?_, x, hx2, hsx, hex⟩)
            intro hc
            rcases List.mem_cons.mp hc with hc1 | hc2
            · exact hkey hc1
            · exact hns hc2

theorem spanMem_dedupBySpan (l : List ServerActionSpan) (s e : Nat) :
    (∃ it ∈ dedupBySpan l, it.bodyStart = s ∧ it.bodyEnd = e)
      ↔ ∃ it ∈ l, it.bodyStart = s ∧ it.bodyEnd = e := by
  unfold dedupBySpan
  rw [dedupGo_spanMem]
  simp

/-!
## Pass-level corollaries
-/

/-- Everything in a bounded pass's `callRanges` is the site of some candidate
that was not rejected by the pre-filter. -/
theorem runPassBounded_ranges_from (mc mr : Nat) (ns : NameSets)
    (cands : List CallSiteSpan) (env : PassEnv) :
    ∀ x ∈ (runPassBounded mc mr ns cands env).ranges,
      ∃ c ∈ cands, ¬decideCandidate ns c = Decision.reject ∧ x = siteOf c := by
  intro x hx
  unfold runPassBounded at hx
  set stL := runLoop mc mr ns initState cands env.admits with hstL
  obtain ⟨hr, hf, _⟩ := runLoop_from mc mr ns cands env.admits initState
  have fromLoop : ∀ y ∈ stL.ranges,
      ∃ c ∈ cands, ¬decideCandidate ns c = Decision.reject ∧ y = siteOf c := by
    intro y hy
    rcases hr y hy with hmem | ⟨t, ht, _⟩ | hex
    · exact absurd hmem (List.not_mem_nil y)
    · exact absurd ht (List.not_mem_nil t)
    · exact hex
  by_cases hh : stL.hung = true
  · rw [if_pos hh] at hx
    exact fromLoop x hx
  · rw [if_neg hh] at hx
    rcases drainLoop_ranges_from stL.inFlight.length 0 stL env.drains x hx with
      hmem | ⟨t, ht, _, rfl⟩
    · exact fromLoop x hmem
    · rcases hf t ht with hmem2 | ⟨c, hc, hcdec, hsite⟩
      · exact absurd hmem2 (List.not_mem_nil t)
      · exact ⟨c, hc, by rw [hcdec]; simp, hsite⟩

/-- Every oracle-call event of a bounded pass belongs to a candidate admitted
through the resolution path, at that candidate's probe offset. -/
theorem runPassBounded_events_oracle (mc mr : Nat) (ns : NameSets)
    (cands : List CallSiteSpan) (env : PassEnv) :
    ∀ r p, PassEvent.oracleCall r p ∈ (runPassBounded mc mr ns cands env).events →
      ∃ c ∈ cands, decideCandidate ns c = Decision.resolve (probeOffset c)
        ∧ r = siteOf c ∧ p = probeOffset c := by
  intro r p hev
  unfold runPassBounded at hev
  set stL := runLoop mc mr ns initState cands env.admits with hstL
  obtain ⟨_, _, he⟩ := runLoop_from mc mr ns cands env.admits initState
  have fromLoop : PassEvent.oracleCall r p ∈ stL.events →
      ∃ c ∈ cands, decideCandidate ns c = Decision.resolve (probeOffset c)
        ∧ r = siteOf c ∧ p = probeOffset c := by
    intro hmem
    rcases he _ hmem with hmem2 | ⟨t, ht, heq⟩ | ⟨c, hc, hcdec, hev2⟩
    · exact absurd hmem2 (List.not_mem_nil _)
    · exact absurd ht (List.not_mem_nil t)
    · rcases hev2 with heq | ⟨b, heq⟩
      · obtain ⟨h1, h2⟩ := PassEvent.oracleCall.inj heq
        exact ⟨c, hc, hcdec, h1, h2⟩
      · exact absurd heq (by simp)
  by_cases hh : stL.hung = true
  · rw [if_pos hh] at hev
    exact fromLoop hev
  · rw [if_neg hh] at hev
    rcases drainLoop_events_from stL.inFlight.length 0 stL env.drains _ hev with
      hmem | ⟨t, _, heq⟩
    · exact fromLoop hmem
    · exact absurd heq (by simp)

/-- Synchronously-accepted candidates that the bounded pass processed are in its
`callRanges`. -/
theorem runPassBounded_processed_accept (mc mr : Nat) (ns : NameSets)
    (cands : List CallSiteSpan) (env : PassEnv) :
    ∀ c ∈ (runPassBounded mc mr ns cands env).processed,
      (decideCandidate ns c = Decision.acceptJsx
        ∨ decideCandidate ns c = Decision.acceptLocal)
      → siteOf c ∈ (runPassBounded mc mr ns cands env).ranges := by
  intro c hc hgood
  unfold runPassBounded at hc ⊢
  set stL := runLoop mc mr ns initState cands env.admits with hstL
  have hloop : ∀ d ∈ stL.processed,
      (decideCandidate ns d = Decision.acceptJsx
        ∨ decideCandidate ns d = Decision.acceptLocal) → siteOf d ∈ stL.ranges := by
    refine runLoop_processed_accept mc mr ns cands env.admits initState ?_
    intro d hd
    exact absurd hd (List.not_mem_nil d)
  by_cases hh : stL.hung = true
  · rw [if_pos hh] at hc ⊢
    exact hloop c hc hgood
  · rw [if_neg hh] at hc ⊢
    rw [drainLoop_processed] at hc
    exact drainLoop_ranges_subset stL.inFlight.length 0 stL env.drains (hloop c hc hgood)

/-- A candidate of a JSX entry-point kind always decides to `acceptJsx`. -/
theorem decide_jsx {ns : NameSets} {c : CallSiteSpan}
    (h : c.kind = CallKind.jsxAction ∨ c.kind = CallKind.jsxFormAction) :
    decideCandidate ns c = Decision.acceptJsx := by
  unfold decideCandidate
  rw [if_pos h]

theorem runUnbounded_ranges_subset (ns : NameSets) (cands : List CallSiteSpan)
    (oks : List Bool) (acc : URes) :
    acc.ranges ⊆ (runUnbounded ns cands oks acc).ranges := by
  induction cands generalizing oks acc with
  | nil => rw [runUnbounded]; exact fun x hx => hx
  | cons c cs ih =>
    rw [runUnbounded]
    cases hdec : decideCandidate ns c with
    | acceptJsx =>
      exact fun x hx =>
        ih oks { acc with ranges := addRange acc.ranges (siteOf c) }
          (subset_addRange _ _ hx)
    | acceptLocal =>
      exact fun x hx =>
        ih oks { acc with ranges := addRange acc.ranges (siteOf c) }
          (subset_addRange _ _ hx)
    | reject => exact ih oks acc
    | resolve p =>
      intro x hx
      refine ih oks.tail _ ?_
      simp only
      split
      · exact subset_addRange _ _ hx
      · exact hx

/-- In the unbounded pass every synchronously-accepted candidate lands in the
ranges (no budget can interrupt the loop). -/
theorem runUnbounded_accept_mem (ns : NameSets) (cands : List CallSiteSpan)
    (oks : List Bool) (acc : URes) :
    ∀ c ∈ cands,
      (decideCandidate ns c = Decision.acceptJsx
        ∨ decideCandidate ns c = Decision.acceptLocal)
      → siteOf c ∈ (runUnbounded ns cands oks acc).ranges := by
  induction cands generalizing oks acc with
  | nil => intro c hc; exact absurd hc (List.not_mem_nil c)
  | cons hd cs ih =>
    intro c hc hgood
    rw [runUnbounded]
    rcases List.mem_cons.mp hc with rfl | hc2
    · rcases hgood with hdec | hdec
      · rw [hdec]
        exact runUnbounded_ranges_subset ns cs oks _ (mem_addRange_self _ _)
      · rw [hdec]
        exact runUnbounded_ranges_subset ns cs oks _ (mem_addRange_self _ _)
    · cases hdec : decideCandidate ns hd with
      | acceptJsx => exact ih oks _ c hc2 hgood
      | acceptLocal => exact ih oks _ c hc2 hgood
      | reject => exact ih oks acc c hc2 hgood
      | resolve p => exact ih oks.tail _ c hc2 hgood

/-- Every oracle-call event of the unbounded pass belongs to a resolution-path
candidate. -/
theorem runUnbounded_events_oracle (ns : NameSets) (cands : List CallSiteSpan)
    (oks : List Bool) (acc : URes) :
    ∀ r p, PassEvent.oracleCall r p ∈ (runUnbounded ns cands oks acc).events →
      PassEvent.oracleCall r p ∈ acc.events
        ∨ ∃ c ∈ cands, decideCandidate ns c = Decision.resolve (probeOffset c)
            ∧ r = siteOf c ∧ p = probeOffset c := by
  induction cands generalizing oks acc with
  | nil => intro r p hev; exact Or.inl hev
  | cons hd cs ih =>
    intro r p hev
    rw [runUnbounded] at hev
    cases hdec : decideCandidate ns hd with
    | acceptJsx =>
      rw [hdec] at hev
      rcases ih oks _ r p hev with hmem | hex
      · exact Or.inl hmem
      · exact Or.inr (exists_mem_cons_of hex)
    | acceptLocal =>
      rw [hdec] at hev
      rcases ih oks _ r p hev with hmem | hex
      · exact Or.inl hmem
      · exact Or.inr (exists_mem_cons_of hex)
    | reject =>
      rw [hdec] at hev
      rcases ih oks acc r p hev with hmem | hex
      · exact Or.inl hmem
      · exact Or.inr (exists_mem_cons_of hex)
    | resolve p2 =>
      rw [hdec] at hev
      have hp2 : p2 = probeOffset hd := decide_resolve_probe hdec
      subst hp2
      rcases ih oks.tail _ r p hev with hmem | hex
      · simp only [List.mem_append, List.mem_cons, List.mem_singleton] at hmem
        rcases hmem with hmem | heq | heq
        · exact Or.inl hmem
        · obtain ⟨h1, h2⟩ := PassEvent.oracleCall.inj heq
          exact Or.inr ⟨hd, List.mem_cons_self hd cs, hdec, h1, h2⟩
        · exact absurd heq (by simp)
      · exact Or.inr (exists_mem_cons_of hex)

/-!
## Claim theorems
-/

theorem iconRangesOf_eq (text : List Char) (spans : List ServerActionSpan) :
    iconRangesOf text spans
      = (spans.filter fun s => decide (text[s.bodyStart]? = some '{')).map
          (fun s => { start := lineEndOffset text s.bodyStart,
                      stop := lineEndOffset text s.bodyStart }) := by
  induction spans with
  | nil => rfl
  | cons s rest ih =>
    unfold iconRangesOf at ih ⊢
    rw [List.filterMap_cons, List.filter_cons]
    by_cases hc : text[s.bodyStart]? = some '{'
    · simp [hc, ih]
    · simp [hc, ih]

/-- C10: every icon range is empty (`start = end`) and sits at the end-of-line
offset of the line containing the body's opening brace; a definition whose body
does not literally begin with `{` contributes no icon range (the icon list is
exactly the brace-led definitions mapped to those empty ranges); and every
definition contributes a body range expanded to full line boundaries, with
`start <= end` whenever the span itself is ordered. -/
theorem C10_icon_body_ranges (text : List Char) (spans : List ServerActionSpan)
    (h : ∀ s ∈ spans, s.bodyStart ≤ s.bodyEnd) :
    (∀ r ∈ iconRangesOf text spans, r.start = r.stop)
    ∧ iconRangesOf text spans
        = (spans.filter fun s => decide (text[s.bodyStart]? = some '{')).map
            (fun s => { start := lineEndOffset text s.bodyStart,
                        stop := lineEndOffset text s.bodyStart })
    ∧ bodyRangesOf text spans
        = spans.map (fun s => { start := lineStartOffset text s.bodyStart,
                                stop := lineEndOffset text s.bodyEnd })
    ∧ (∀ r ∈ bodyRangesOf text spans, r.start ≤ r.stop) := by
  refine ⟨?_, iconRangesOf_eq text spans, rfl, ?_⟩
  · intro r hr
    rw [iconRangesOf_eq] at hr
    obtain ⟨s, _, rfl⟩ := List.mem_map.mp hr
    rfl
  · intro r hr
    obtain ⟨s, hs, rfl⟩ := List.mem_map.mp hr
    have h1 : lineStartOffset text s.bodyStart ≤ s.bodyStart := lineStartOffset_le text _
    have h2 : lineStartOffset text s.bodyStart ≤ text.length :=
      lineStartOffset_le_length text _
    have hse : s.bodyStart ≤ s.bodyEnd := h s hs
    by_cases hbe : s.bodyEnd ≤ text.length
    · have h3 : s.bodyEnd ≤ lineEndOffset text s.bodyEnd := le_lineEndOffset text _ hbe
      simp only
      omega
    · have h4 : lineEndOffset text s.bodyEnd = text.length := by
        rw [lineEndOffset, dif_neg (by omega)]
      simp only [h4]
      omega

theorem C10_witness :
    (∀ s ∈ [({ name := "f", bodyStart := 2, bodyEnd := 4 } : ServerActionSpan)],
        s.bodyStart ≤ s.bodyEnd)
    ∧ ∀ r ∈ iconRangesOf ['a', 'b', '{', '\n', 'x']
        [({ name := "f", bodyStart := 2, bodyEnd := 4 } : ServerActionSpan)],
        r.start = r.stop :=
  ⟨by decide,
   (C10_icon_body_ranges ['a', 'b', '{', '\n', 'x']
      [{ name := "f", bodyStart := 2, bodyEnd := 4 }] (by decide)).1⟩

/-- C8: with bounds in effect, a resolution whose timer fires before the oracle
answers (the oracle settles no earlier than `resolveTimeoutMs`, or never)
settles the race with `false` — not an error; and the pass handles such a
completion normally: the site is not added, the `resolutions` counter still
advances, and the scheduler state stays healthy. -/
theorem C8_timeout_is_false (tmo : Nat) (o : OracleBehavior)
    (h : o = OracleBehavior.never ∨ ∃ d v, o = OracleBehavior.settles d v ∧ tmo ≤ d) :
    runWithTimeout true tmo o = some (Except.ok false)
    ∧ (∀ (st : PassState) (i : Nat) (t : Task), st.inFlight[i]? = some t → t.ok = false →
        (completeAt st i).ranges = st.ranges
        ∧ (completeAt st i).res = st.res + 1
        ∧ (completeAt st i).hung = st.hung
        ∧ (completeAt st i).inFlight = st.inFlight.eraseIdx i) := by
  constructor
  · rcases h with rfl | ⟨d, v, rfl, hd⟩
    · rfl
    · unfold runWithTimeout
      simp only [Bool.not_true, Bool.false_eq_true, if_false]
      rw [if_neg (by omega)]
  · intro st i t hsome hok
    unfold completeAt
    rw [hsome]
    simp [hok]

theorem C8_witness :
    ((OracleBehavior.settles 9 (Except.ok true) = OracleBehavior.never
        ∨ ∃ d v, OracleBehavior.settles 9 (Except.ok true) = OracleBehavior.settles d v
            ∧ 5 ≤ d)
      ∧ runWithTimeout true 5 (OracleBehavior.settles 9 (Except.ok true))
          = some (Except.ok false))
    ∧ (completeAt { res := 0, inFlight := [{ site := { start := 1, stop := 2 }, ok := false }],
                    calls := 1, ranges := [], events := [], processed := [], hung := false }
        0).res = 1 := by
  have hmain := C8_timeout_is_false 5 (OracleBehavior.settles 9 (Except.ok true))
    (Or.inr ⟨9, Except.ok true, rfl, by omega⟩)
  refine ⟨⟨Or.inr ⟨9, Except.ok true, rfl, by omega⟩, hmain.1⟩, ?_⟩
  exact (hmain.2
    { res := 0, inFlight := [{ site := { start := 1, stop := 2 }, ok := false }],
      calls := 1, ranges := [], events := [], processed := [], hung := false }
    0 { site := { start := 1, stop := 2 }, ok := false } rfl rfl).2.1

/-- C5: a candidate with a truthy callee name that is not a same-file action
name and belongs to neither the imported nor the locally-callable set is
rejected unless its qualifier is a truthy namespace-import name, in which case
it proceeds to resolution at its probe offset; the callee/qualifier extractor
yields `qualifierName = ns` for one-level `ns.fn()` but no qualifier for
two-level `ns.group.fn()`; and a rejected candidate (unique for its span)
contributes neither a range nor any oracle call in any bounded pass. -/
theorem C5_plain_name_filter (ns : NameSets) (c : CallSiteSpan) (n : String)
    (hk1 : ¬c.kind = CallKind.jsxAction) (hk2 : ¬c.kind = CallKind.jsxFormAction)
    (hname : c.calleeName = some n) (hne : ¬n = "")
    (hlocal : ns.localActionNames.contains n = false)
    (himp : ns.imported.contains n = false)
    (hloc : ns.locals.contains n = false) :
    (decideCandidate ns c
      = if optTruthy c.qualifierName && ns.nsImports.contains (c.qualifierName.getD "") then
          Decision.resolve (probeOffset c)
        else Decision.reject)
    ∧ (∀ b f s e, mkDirectCallCandidate (CEx.propAccess (CEx.ident b) f) s e
        = some { kind := CallKind.directCall, start := s, stop := e,
                 calleeName := some f, qualifierName := some b })
    ∧ (∀ b g f s e, mkDirectCallCandidate
          (CEx.propAccess (CEx.propAccess (CEx.ident b) g) f) s e
        = some { kind := CallKind.directCall, start := s, stop := e,
                 calleeName := some f, qualifierName := none })
    ∧ (decideCandidate ns c = Decision.reject →
        ∀ mc mr cands env, c ∈ cands →
          (∀ c2 ∈ cands, siteOf c2 = siteOf c → c2 = c) →
          siteOf c ∉ (runPassBounded mc mr ns cands env).ranges
          ∧ ∀ p, PassEvent.oracleCall (siteOf c) p
              ∉ (runPassBounded mc mr ns cands env).events) := by
  refine ⟨?_, fun b f s e => rfl, fun b g f s e => rfl, ?_⟩
  · have hcal : optTruthy c.calleeName = true := by
      rw [hname]; simp [optTruthy, hne]
    unfold decideCandidate
    rw [if_neg (by intro hor; rcases hor with h | h; exact hk1 h; exact hk2 h)]
    rw [if_neg (by
      rintro ⟨_, hcon⟩
      rw [hname] at hcon
      simp only [Option.getD_some] at hcon
      rw [hlocal] at hcon
      exact Bool.false_ne_true hcon)]
    by_cases hq : (optTruthy c.qualifierName
        && ns.nsImports.contains (c.qualifierName.getD "")) = true
    · rw [hq, if_pos rfl]
      rw [if_neg (by
        rintro ⟨_, _, _, hlast⟩
        rw [Bool.and_eq_true] at hq
        rcases hlast with hl | hl
        · rw [hq.1] at hl; exact hl rfl
        · rw [hq.2] at hl; exact hl rfl)]
    · have hq' : (optTruthy c.qualifierName
          && ns.nsImports.contains (c.qualifierName.getD "")) = false := by
        cases hb : (optTruthy c.qualifierName
            && ns.nsImports.contains (c.qualifierName.getD ""))
        · rfl
        · exact absurd hb hq
      rw [hq', if_neg (Bool.false_ne_true)]
      rw [if_pos ?_]
      refine ⟨hcal, ?_, ?_, ?_⟩
      · rw [hname]; simp only [Option.getD_some]; rw [himp]; exact Bool.false_ne_true
      · rw [hname]; simp only [Option.getD_some]; rw [hloc]; exact Bool.false_ne_true
      · rw [Bool.and_eq_false_iff] at hq'
        rcases hq' with hl | hl
        · exact Or.inl (by rw [hl]; exact Bool.false_ne_true)
        · exact Or.inr (by rw [hl]; exact Bool.false_ne_true)
  · intro hrej mc mr cands env hc huniq
    constructor
    · intro hmem
      obtain ⟨c2, hc2, hnd, hsite⟩ := runPassBounded_ranges_from mc mr ns cands env _ hmem
      have : c2 = c := huniq c2 hc2 hsite.symm
      rw [this] at hnd
      exact hnd hrej
    · intro p hmem
      obtain ⟨c2, hc2, hdec2, hsite, _⟩ :=
        runPassBounded_events_oracle mc mr ns cands env _ _ hmem
      have : c2 = c := huniq c2 hc2 hsite.symm
      rw [this] at hdec2
      rw [hrej] at hdec2
      exact absurd hdec2 (by simp)

theorem C5_witness :
    decideCandidate { localActionNames := [], imported := [], locals := [],
                      nsImports := ["actions"] }
        { kind := CallKind.directCall, start := 0, stop := 17,
          calleeName := some "submit", qualifierName := some "actions" }
      = Decision.resolve 3
    ∧ decideCandidate { localActionNames := [], imported := [], locals := [],
                        nsImports := ["actions"] }
        { kind := CallKind.directCall, start := 0, stop := 24,
          calleeName := some "submit", qualifierName := none }
      = Decision.reject := by
  have h1 := (C5_plain_name_filter
    { localActionNames := [], imported := [], locals := [], nsImports := ["actions"] }
    { kind := CallKind.directCall, start := 0, stop := 17,
      calleeName := some "submit", qualifierName := some "actions" }
    "submit" (by decide) (by decide) rfl (by decide) rfl rfl rfl).1
  have h2 := (C5_plain_name_filter
    { localActionNames := [], imported := [], locals := [], nsImports := ["actions"] }
    { kind := CallKind.directCall, start := 0, stop := 24,
      calleeName := some "submit", qualifierName := none }
    "submit" (by decide) (by decide) rfl (by decide) rfl rfl rfl).1
  constructor
  · rw [h1]; rfl
  · rw [h2]; rfl

/-- C7: a function-like node (a visit collected by the extractor's walk) is
reported as an action definition — its body span appears in
`scanServerActions` — exactly when it is asynchronous and either the module's
leading statement sequence or its own body's leading statements begin with the
`use server` directive, where an exported declaration may rely on either
condition while a non-exported one qualifies only through its own body. -/
theorem C7_definition_eligibility (m : List Stmt) (s e : Nat) :
    (∃ it ∈ scanServerActions m, it.bodyStart = s ∧ it.bodyEnd = e)
      ↔ ∃ occ ∈ rawStmts m,
          occ.isAsync = true
          ∧ (occ.exported = true → (isUseServerPrologue m = true ∨ occ.bodyUse = true))
          ∧ (occ.exported = false → occ.bodyUse = true)
          ∧ occ.bodySpan = some (s, e) := by
  unfold scanServerActions
  rw [spanMem_dedupBySpan]
  constructor
  · rintro ⟨it, hit, hs, he⟩
    obtain ⟨occ, hocc, hpush⟩ := List.mem_filterMap.mp hit
    refine ⟨occ, hocc, ?_⟩
    unfold pushIfEligible at hpush
    by_cases hel : (occ.isAsync
        && ((occ.exported && (isUseServerPrologue m || occ.bodyUse))
            || (!occ.exported && occ.bodyUse))) = true
    · rw [if_pos hel] at hpush
      simp only [Bool.and_eq_true, Bool.or_eq_true, Bool.not_eq_true'] at hel
      obtain ⟨ha, hcond⟩ := hel
      cases hbs : occ.bodySpan with
      | none => rw [hbs] at hpush; exact absurd hpush (by simp)
      | some pr =>
        obtain ⟨ps, pe⟩ := pr
        rw [hbs] at hpush
        have hit2 := Option.some.inj hpush
        have hps : ps = s := by rw [← hs, ← hit2]
        have hpe : pe = e := by rw [← he, ← hit2]
        refine ⟨ha, ?_, ?_, by rw [hps, hpe]⟩
        · intro hexp
          rcases hcond with ⟨_, hmo⟩ | ⟨hne, _⟩
          · exact hmo
          · rw [hexp] at hne; exact absurd hne (by simp)
        · intro hnexp
          rcases hcond with ⟨hex, _⟩ | ⟨_, hbu⟩
          · rw [hnexp] at hex; exact absurd hex (by simp)
          · exact hbu
    · rw [if_neg hel] at hpush
      exact absurd hpush (by simp)
  · rintro ⟨occ, hocc, ha, hexp, hnexp, hbs⟩
    have hel : (occ.isAsync
        && ((occ.exported && (isUseServerPrologue m || occ.bodyUse))
            || (!occ.exported && occ.bodyUse))) = true := by
      simp only [Bool.and_eq_true, Bool.or_eq_true, Bool.not_eq_true']
      refine ⟨ha, ?_⟩
      cases hex : occ.exported
      · exact Or.inr ⟨rfl, hnexp hex⟩
      · exact Or.inl ⟨rfl, hexp hex⟩
    refine ⟨{ name := occ.name, bodyStart := s, bodyEnd := e,
              nameStart := occ.nameStart, nameEnd := occ.nameEnd },
      List.mem_filterMap.mpr ⟨occ, hocc, ?_⟩, rfl, rfl⟩
    unfold pushIfEligible
    rw [if_pos hel, hbs]

theorem C7_witness :
    ∃ it ∈ scanServerActions
        [Stmt.exprStmt (Expr.strLit "use server"),
         Stmt.fnDecl true false true (some "doIt") 10 14 (some (FnBody.block 20 30 []))],
      it.bodyStart = 20 ∧ it.bodyEnd = 30 := by
  refine (C7_definition_eligibility _ 20 30).mpr
    ⟨fnDeclOcc true false true (some "doIt") 10 14 (some (FnBody.block 20 30 [])),
      ?_, by decide, fun _ => Or.inl (by decide), fun hc => absurd hc (by decide), by decide⟩
  decide

/-- C1 (amended): with options supplied, one correlation pass performs at most
`maxResolutions + maxConcurrent` oracle invocations.  The budget counter counts
only completed resolutions (`resolutions++` runs after the race settles), so up
to `maxConcurrent` still-in-flight resolutions are invisible to both budget
checks and can be admitted beyond `maxResolutions`; the stated bound is what the
pre-check (`resolutions < maxResolutions`) and the pool cap together guarantee. -/
theorem C1_calls_at_most_budget_plus_pool (mc mr : Nat) (ns : NameSets)
    (vr : Option OffsetRange) (cands : List CallSiteSpan) (env : PassEnv) :
    (runPassBounded mc mr ns (orderCalls vr cands) env).calls ≤ mr + mc := by
  unfold runPassBounded
  have hbase := runLoop_budget mc mr ns (orderCalls vr cands) env.admits initState rfl
    (Nat.zero_le mc) (Nat.zero_le _) rfl
  set stL := runLoop mc mr ns initState (orderCalls vr cands) env.admits with hstL
  by_cases hh : stL.hung = true
  · rw [if_pos hh]; exact hbase
  · rw [if_neg hh]; rw [drainLoop_calls]; exact hbase

/-- C1 counterexample: `maxConcurrent = 2`, `maxResolutions = 1`, two candidates
surviving filtering (both callees imported), an oracle that has not settled by
the post-`schedule` checks: both candidates are admitted, so 2 oracle calls
occur although `maxResolutions = 1`. -/
theorem C1_counterexample :
    (List.filter
        (fun c => decide (decideCandidate
            { localActionNames := [], imported := ["doIt"], locals := [], nsImports := [] } c
          = Decision.resolve (probeOffset c)))
        (orderCalls none
          [{ kind := CallKind.directCall, start := 0, stop := 8,
             calleeName := some "doIt", qualifierName := none },
           { kind := CallKind.directCall, start := 10, stop := 18,
             calleeName := some "doIt", qualifierName := none }])).length = 2
    ∧ (runPassBounded 2 1
        { localActionNames := [], imported := ["doIt"], locals := [], nsImports := [] }
        (orderCalls none
          [{ kind := CallKind.directCall, start := 0, stop := 8,
             calleeName := some "doIt", qualifierName := none },
           { kind := CallKind.directCall, start := 10, stop := 18,
             calleeName := some "doIt", qualifierName := none }])
        { admits := [defaultAdmitEnv, defaultAdmitEnv], drains := [] }).calls = 2
    ∧ ¬((runPassBounded 2 1
        { localActionNames := [], imported := ["doIt"], locals := [], nsImports := [] }
        (orderCalls none
          [{ kind := CallKind.directCall, start := 0, stop := 8,
             calleeName := some "doIt", qualifierName := none },
           { kind := CallKind.directCall, start := 10, stop := 18,
             calleeName := some "doIt", qualifierName := none }])
        { admits := [defaultAdmitEnv, defaultAdmitEnv], drains := [] }).calls ≤ 1) := by
  decide

/-- C2 (modelled from the spec): a cancellation signal already signalled before
the pass starts yields zero oracle admissions (no calls, no events, nothing in
flight), and the returned `callRanges` holds only sites of unconditionally
accepted entry-point-attribute candidates and local-short-circuit candidates —
possibly none. -/
theorem C2_cancel_before_pass (mc mr : Nat) (ns : NameSets) (cands : List CallSiteSpan)
    (env : PassEnv) :
    (runPassSignal true mc mr ns cands env).calls = 0
    ∧ (runPassSignal true mc mr ns cands env).events = []
    ∧ (runPassSignal true mc mr ns cands env).inFlight = []
    ∧ ∀ x ∈ (runPassSignal true mc mr ns cands env).ranges,
        ∃ c ∈ cands, (decideCandidate ns c = Decision.acceptJsx
          ∨ decideCandidate ns c = Decision.acceptLocal) ∧ x = siteOf c := by
  obtain ⟨h1, h2, h3, _, h5⟩ := runLoopSignal_true mc mr ns cands env.admits initState
  unfold runPassSignal
  rw [if_pos rfl]
  refine ⟨h1, h3, h2, fun x hx => ?_⟩
  rcases h5 x hx with hmem | hex
  · exact absurd hmem (List.not_mem_nil x)
  · exact hex

theorem C2_witness :
    ∃ c ∈ [({ kind := CallKind.jsxAction, start := 0, stop := 5,
              calleeName := none, qualifierName := none } : CallSiteSpan)],
      (decideCandidate { localActionNames := [], imported := [], locals := [],
                         nsImports := [] } c = Decision.acceptJsx
        ∨ decideCandidate { localActionNames := [], imported := [], locals := [],
                            nsImports := [] } c = Decision.acceptLocal)
      ∧ ({ start := 0, stop := 5 } : OffsetRange) = siteOf c :=
  (C2_cancel_before_pass 6 30
      { localActionNames := [], imported := [], locals := [], nsImports := [] }
      [{ kind := CallKind.jsxAction, start := 0, stop := 5,
         calleeName := none, qualifierName := none }]
      { admits := [], drains := [] }).2.2.2
    { start := 0, stop := 5 } (by decide)

/-- C3 (amended): entry-point-attribute candidates are accepted without any
oracle invocation, and their span is present in `callRanges` provided the pass's
iteration reaches them — always in the unbounded pass, and for every candidate
the bounded pass processed; a global-budget break can leave later entry-point
candidates unprocessed (see the counterexample), so presence is not
unconditional. -/
theorem C3_entry_points (mc mr : Nat) (ns : NameSets) (cands : List CallSiteSpan)
    (env : PassEnv) (oks : List Bool) :
    (∀ c ∈ (runPassBounded mc mr ns cands env).processed,
        (c.kind = CallKind.jsxAction ∨ c.kind = CallKind.jsxFormAction)
        → siteOf c ∈ (runPassBounded mc mr ns cands env).ranges)
    ∧ (∀ c ∈ cands, (c.kind = CallKind.jsxAction ∨ c.kind = CallKind.jsxFormAction)
        → siteOf c ∈ (runUnbounded ns cands oks initURes).ranges)
    ∧ (∀ c ∈ cands, (c.kind = CallKind.jsxAction ∨ c.kind = CallKind.jsxFormAction)
        → (∀ c2 ∈ cands, siteOf c2 = siteOf c → c2 = c)
        → (∀ p, PassEvent.oracleCall (siteOf c) p
              ∉ (runPassBounded mc mr ns cands env).events)
          ∧ ∀ p, PassEvent.oracleCall (siteOf c) p
              ∉ (runUnbounded ns cands oks initURes).events) := by
  refine ⟨?_, ?_, ?_⟩
  · intro c hc hkind
    exact runPassBounded_processed_accept mc mr ns cands env c hc (Or.inl (decide_jsx hkind))
  · intro c hc hkind
    exact runUnbounded_accept_mem ns cands oks initURes c hc (Or.inl (decide_jsx hkind))
  · intro c hc hkind huniq
    constructor
    · intro p hmem
      obtain ⟨c2, hc2, hdec2, hsite, _⟩ :=
        runPassBounded_events_oracle mc mr ns cands env _ _ hmem
      have : c2 = c := huniq c2 hc2 hsite.symm
      rw [this, decide_jsx hkind] at hdec2
      exact absurd hdec2 (by simp)
    · intro p hmem
      rcases runUnbounded_events_oracle ns cands oks initURes _ _ hmem with
        hmem2 | ⟨c2, hc2, hdec2, hsite, _⟩
      · exact absurd hmem2 (List.not_mem_nil _)
      · have : c2 = c := huniq c2 hc2 hsite.symm
        rw [this, decide_jsx hkind] at hdec2
        exact absurd hdec2 (by simp)

theorem C3_witness :
    ({ kind := CallKind.jsxAction, start := 0, stop := 5,
       calleeName := none, qualifierName := none } : CallSiteSpan).kind = CallKind.jsxAction
    ∧ siteOf ({ kind := CallKind.jsxAction, start := 0, stop := 5,
                calleeName := none, qualifierName := none } : CallSiteSpan)
      ∈ (runUnbounded
          { localActionNames := [], imported := [], locals := [], nsImports := [] }
          [{ kind := CallKind.jsxAction, start := 0, stop := 5,
             calleeName := none, qualifierName := none }] [] initURes).ranges :=
  ⟨rfl,
   (C3_entry_points 6 30
      { localActionNames := [], imported := [], locals := [], nsImports := [] }
      [{ kind := CallKind.jsxAction, start := 0, stop := 5,
         calleeName := none, qualifierName := none }]
      { admits := [], drains := [] } []).2.1
     { kind := CallKind.jsxAction, start := 0, stop := 5,
       calleeName := none, qualifierName := none }
     (by decide) (Or.inl rfl)⟩

/-- C3 counterexample: with bounds `maxResolutions = 0`, an earlier surviving
direct-call candidate makes the pre-`schedule` budget check break the loop, so a
later `jsxAction` candidate is never processed and its span is missing from
`callRanges` — the unconditional "always surfaced" reading fails. -/
theorem C3_counterexample :
    ({ kind := CallKind.jsxAction, start := 10, stop := 20,
       calleeName := none, qualifierName := none } : CallSiteSpan)
      ∈ [({ kind := CallKind.directCall, start := 0, stop := 8,
            calleeName := some "doIt", qualifierName := none } : CallSiteSpan),
         { kind := CallKind.jsxAction, start := 10, stop := 20,
           calleeName := none, qualifierName := none }]
    ∧ (runPassBounded 6 0
        { localActionNames := [], imported := ["doIt"], locals := [], nsImports := [] }
        (orderCalls none
          [{ kind := CallKind.directCall, start := 0, stop := 8,
             calleeName := some "doIt", qualifierName := none },
           { kind := CallKind.jsxAction, start := 10, stop := 20,
             calleeName := none, qualifierName := none }])
        { admits := [], drains := [] }).ranges = []
    ∧ ({ start := 10, stop := 20 } : OffsetRange)
        ∉ (runPassBounded 6 0
            { localActionNames := [], imported := ["doIt"], locals := [], nsImports := [] }
            (orderCalls none
              [{ kind := CallKind.directCall, start := 0, stop := 8,
                 calleeName := some "doIt", qualifierName := none },
               { kind := CallKind.jsxAction, start := 10, stop := 20,
                 calleeName := none, qualifierName := none }])
            { admits := [], drains := [] }).ranges := by
  decide

/-- C4: the drain `for (const p of queue) { await p; }` iterates the live queue
while each settling promise splices itself out, so the iterator skips a member:
in this run two resolutions are admitted, the first settles during the drain's
first await, and the pass returns with the second (outcome `true`) still in
flight — `callRanges` is missing its site, which would only be added by the
completion after the pass returned. -/
theorem C4_drain_skips_inflight :
    (runPassBounded 6 30
        { localActionNames := [], imported := ["doIt"], locals := [], nsImports := [] }
        [{ kind := CallKind.directCall, start := 0, stop := 8,
           calleeName := some "doIt", qualifierName := none },
         { kind := CallKind.directCall, start := 10, stop := 18,
           calleeName := some "doIt", qualifierName := none }]
        { admits := [{ waitCompletions := [], postCompletions := [], preTimeUp := false,
                       postTimeUp := false, ok := false },
                     { waitCompletions := [], postCompletions := [], preTimeUp := false,
                       postTimeUp := false, ok := true }],
          drains := [[]] }).inFlight
      = [{ site := { start := 10, stop := 18 }, ok := true }]
    ∧ (runPassBounded 6 30
        { localActionNames := [], imported := ["doIt"], locals := [], nsImports := [] }
        [{ kind := CallKind.directCall, start := 0, stop := 8,
           calleeName := some "doIt", qualifierName := none },
         { kind := CallKind.directCall, start := 10, stop := 18,
           calleeName := some "doIt", qualifierName := none }]
        { admits := [{ waitCompletions := [], postCompletions := [], preTimeUp := false,
                       postTimeUp := false, ok := false },
                     { waitCompletions := [], postCompletions := [], preTimeUp := false,
                       postTimeUp := false, ok := true }],
          drains := [[]] }).ranges = []
    ∧ (runPassBounded 6 30
        { localActionNames := [], imported := ["doIt"], locals := [], nsImports := [] }
        [{ kind := CallKind.directCall, start := 0, stop := 8,
           calleeName := some "doIt", qualifierName := none },
         { kind := CallKind.directCall, start := 10, stop := 18,
           calleeName := some "doIt", qualifierName := none }]
        { admits := [{ waitCompletions := [], postCompletions := [], preTimeUp := false,
                       postTimeUp := false, ok := false },
                     { waitCompletions := [], postCompletions := [], preTimeUp := false,
                       postTimeUp := false, ok := true }],
          drains := [[]] }).calls = 2
    ∧ (completeAt (runPassBounded 6 30
        { localActionNames := [], imported := ["doIt"], locals := [], nsImports := [] }
        [{ kind := CallKind.directCall, start := 0, stop := 8,
           calleeName := some "doIt", qualifierName := none },
         { kind := CallKind.directCall, start := 10, stop := 18,
           calleeName := some "doIt", qualifierName := none }]
        { admits := [{ waitCompletions := [], postCompletions := [], preTimeUp := false,
                       postTimeUp := false, ok := false },
                     { waitCompletions := [], postCompletions := [], preTimeUp := false,
                       postTimeUp := false, ok := true }],
          drains := [[]] }) 0).ranges
      = [{ start := 10, stop := 18 }] := by
  decide

/-- C9: oracle invocations split exactly into completed resolutions plus
in-flight ones; `calls` counts the oracle-call events and the `resolutions`
counter counts completion events — an admission (`admitTask`) leaves the counter
untouched while every completion (`completeAt` with a live index) increments it
by exactly one, regardless of the race's boolean, so timed-out resolutions
consume the budget exactly like answered ones and in-flight resolutions are
invisible to the budget. -/
theorem C9_resolution_counter (mc mr : Nat) (ns : NameSets) (cands : List CallSiteSpan)
    (env : PassEnv) :
    ((runPassBounded mc mr ns cands env).calls
        = (runPassBounded mc mr ns cands env).res
          + (runPassBounded mc mr ns cands env).inFlight.length)
    ∧ (runPassBounded mc mr ns cands env).calls
        = countOracle (runPassBounded mc mr ns cands env).events
    ∧ (runPassBounded mc mr ns cands env).res
        = countCompleted (runPassBounded mc mr ns cands env).events
    ∧ (∀ (st : PassState) (c : CallSiteSpan) (ok : Bool),
        (admitTask st c ok).res = st.res ∧ (admitTask st c ok).calls = st.calls + 1)
    ∧ (∀ (st : PassState) (i : Nat) (t : Task), st.inFlight[i]? = some t →
        (completeAt st i).res = st.res + 1
        ∧ (completeAt st i).calls = st.calls
        ∧ countCompleted (completeAt st i).events = countCompleted st.events + 1) := by
  have hsum : (runPassBounded mc mr ns cands env).calls
      = (runPassBounded mc mr ns cands env).res
        + (runPassBounded mc mr ns cands env).inFlight.length := by
    unfold runPassBounded
    set stL := runLoop mc mr ns initState cands env.admits with hstL
    have hloop : stL.calls = stL.res + stL.inFlight.length :=
      runLoop_sum_inv mc mr ns cands env.admits initState rfl
    by_cases hh : stL.hung = true
    · rw [if_pos hh]; exact hloop
    · rw [if_neg hh]
      rw [drainLoop_calls, drainLoop_sum]
      exact hloop
  have hev : EvCount (runPassBounded mc mr ns cands env) := by
    unfold runPassBounded
    set stL := runLoop mc mr ns initState cands env.admits with hstL
    have hloop : EvCount stL := evCount_runLoop initState ⟨rfl, rfl⟩ mc mr ns cands env.admits
    by_cases hh : stL.hung = true
    · rw [if_pos hh]; exact hloop
    · rw [if_neg hh]; exact evCount_drainLoop hloop _ _ _
  refine ⟨hsum, hev.1, hev.2, fun st c ok => ⟨rfl, rfl⟩, ?_⟩
  intro st i t hsome
  unfold completeAt
  rw [hsome]
  refine ⟨rfl, rfl, ?_⟩
  simp only [countCompleted_append]
  have : countCompleted [PassEvent.completed t.site t.ok] = 1 := by
    simp [countCompleted, List.filter, isCompletedEv]
  rw [this]

/-- Membership in `computeLocalActionNames` delivers both truthiness and the
`Set.has` test of the loop. -/
theorem mem_computeLocalActionNames_ne_empty {spans : List ServerActionSpan} {n : String}
    (h : n ∈ computeLocalActionNames spans) : ¬n = "" := by
  obtain ⟨s2, _, hif⟩ := List.mem_filterMap.mp h
  by_cases hc : s2.name ≠ "" ∧ s2.name ≠ "(inline)" ∧ s2.name ≠ "default"
  · rw [if_pos hc] at hif
    have : s2.name = n := Option.some.inj hif
    rw [← this]
    exact hc.1
  · rw [if_neg hc] at hif
    exact absurd hif (by simp)

/-- C6 (amended): a candidate whose callee names a same-file non-anonymous,
non-default action definition decides to the local short-circuit; its span is in
`callRanges` whenever the pass's iteration reaches the candidate — always in
the unbounded pass, and for every candidate the bounded pass processed — and no
oracle call is ever made for it; a global-budget break can leave a later
local-call candidate unprocessed (see the counterexample), so the span's
presence is not unconditional in bounded passes. -/
theorem C6_local_short_circuit (mc mr : Nat) (ns : NameSets)
    (spans : List ServerActionSpan) (cands : List CallSiteSpan) (env : PassEnv)
    (oks : List Bool) (c : CallSiteSpan) (n : String)
    (hns : ns.localActionNames = computeLocalActionNames spans)
    (hk1 : ¬c.kind = CallKind.jsxAction) (hk2 : ¬c.kind = CallKind.jsxFormAction)
    (hname : c.calleeName = some n)
    (hmem : n ∈ computeLocalActionNames spans) :
    decideCandidate ns c = Decision.acceptLocal
    ∧ (c ∈ (runPassBounded mc mr ns cands env).processed →
        siteOf c ∈ (runPassBounded mc mr ns cands env).ranges)
    ∧ (c ∈ cands → siteOf c ∈ (runUnbounded ns cands oks initURes).ranges)
    ∧ ((∀ c2 ∈ cands, siteOf c2 = siteOf c → c2 = c) →
        (∀ p, PassEvent.oracleCall (siteOf c) p
            ∉ (runPassBounded mc mr ns cands env).events)
        ∧ ∀ p, PassEvent.oracleCall (siteOf c) p
            ∉ (runUnbounded ns cands oks initURes).events) := by
  have hne : ¬n = "" := mem_computeLocalActionNames_ne_empty hmem
  have hdec : decideCandidate ns c = Decision.acceptLocal := by
    unfold decideCandidate
    rw [if_neg (by intro hor; rcases hor with h | h; exact hk1 h; exact hk2 h)]
    rw [if_pos ?_]
    refine ⟨by rw [hname]; simp [optTruthy, hne], ?_⟩
    rw [hname]
    simp only [Option.getD_some]
    rw [hns]
    exact List.elem_eq_true_of_mem hmem
  refine ⟨hdec, ?_, ?_, ?_⟩
  · intro hc
    exact runPassBounded_processed_accept mc mr ns cands env c hc (Or.inr hdec)
  · intro hc
    exact runUnbounded_accept_mem ns cands oks initURes c hc (Or.inr hdec)
  · intro huniq
    constructor
    · intro p hmem2
      obtain ⟨c2, hc2, hdec2, hsite, _⟩ :=
        runPassBounded_events_oracle mc mr ns cands env _ _ hmem2
      have : c2 = c := huniq c2 hc2 hsite.symm
      rw [this, hdec] at hdec2
      exact absurd hdec2 (by simp)
    · intro p hmem2
      rcases runUnbounded_events_oracle ns cands oks initURes _ _ hmem2 with
        hm | ⟨c2, hc2, hdec2, hsite, _⟩
      · exact absurd hm (List.not_mem_nil _)
      · have : c2 = c := huniq c2 hc2 hsite.symm
        rw [this, hdec] at hdec2
        exact absurd hdec2 (by simp)

theorem C6_witness :
    decideCandidate
        { localActionNames := computeLocalActionNames
            [{ name := "save", bodyStart := 30, bodyEnd := 40 }],
          imported := [], locals := [], nsImports := [] }
        { kind := CallKind.directCall, start := 10, stop := 18,
          calleeName := some "save", qualifierName := none }
      = Decision.acceptLocal
    ∧ siteOf ({ kind := CallKind.directCall, start := 10, stop := 18,
                calleeName := some "save", qualifierName := none } : CallSiteSpan)
      ∈ (runUnbounded
          { localActionNames := computeLocalActionNames
              [{ name := "save", bodyStart := 30, bodyEnd := 40 }],
            imported := [], locals := [], nsImports := [] }
          [{ kind := CallKind.directCall, start := 10, stop := 18,
             calleeName := some "save", qualifierName := none }] [] initURes).ranges := by
  have h := C6_local_short_circuit 6 30
    { localActionNames := computeLocalActionNames
        [{ name := "save", bodyStart := 30, bodyEnd := 40 }],
      imported := [], locals := [], nsImports := [] }
    [{ name := "save", bodyStart := 30, bodyEnd := 40 }]
    [{ kind := CallKind.directCall, start := 10, stop := 18,
       calleeName := some "save", qualifierName := none }]
    { admits := [], drains := [] } []
    { kind := CallKind.directCall, start := 10, stop := 18,
      calleeName := some "save", qualifierName := none }
    "save" rfl (by decide) (by decide) rfl (by decide)
  exact ⟨h.1, h.2.2.1 (by decide)⟩

/-- C6 counterexample: with `maxResolutions = 0` the budget break on an earlier
surviving imported-call candidate ends the loop before the local-call candidate
is processed, so its span is missing from `callRanges` even though its callee
names a same-file action definition. -/
theorem C6_counterexample :
    decideCandidate
        { localActionNames := computeLocalActionNames
            [{ name := "save", bodyStart := 30, bodyEnd := 40 }],
          imported := ["doIt"], locals := [], nsImports := [] }
        { kind := CallKind.directCall, start := 10, stop := 18,
          calleeName := some "save", qualifierName := none }
      = Decision.acceptLocal
    ∧ ({ kind := CallKind.directCall, start := 10, stop := 18,
         calleeName := some "save", qualifierName := none } : CallSiteSpan)
      ∈ [({ kind := CallKind.directCall, start := 0, stop := 8,
            calleeName := some "doIt", qualifierName := none } : CallSiteSpan),
         { kind := CallKind.directCall, start := 10, stop := 18,
           calleeName := some "save", qualifierName := none }]
    ∧ (runPassBounded 6 0
        { localActionNames := computeLocalActionNames
            [{ name := "save", bodyStart := 30, bodyEnd := 40 }],
          imported := ["doIt"], locals := [], nsImports := [] }
        [{ kind := CallKind.directCall, start := 0, stop := 8,
           calleeName := some "doIt", qualifierName := none },
         { kind := CallKind.directCall, start := 10, stop := 18,
           calleeName := some "save", qualifierName := none }]
        { admits := [], drains := [] }).ranges = []
    ∧ siteOf ({ kind := CallKind.directCall, start := 10, stop := 18,
                calleeName := some "save", qualifierName := none } : CallSiteSpan)
      ∉ (runPassBounded 6 0
          { localActionNames := computeLocalActionNames
              [{ name := "save", bodyStart := 30, bodyEnd := 40 }],
            imported := ["doIt"], locals := [], nsImports := [] }
          [{ kind := CallKind.directCall, start := 0, stop := 8,
             calleeName := some "doIt", qualifierName := none },
           { kind := CallKind.directCall, start := 10, stop := 18,
             calleeName := some "save", qualifierName := none }]
          { admits := [], drains := [] }).ranges := by
  decide

theorem C9_witness :
    (completeAt { res := 0, inFlight := [{ site := { start := 1, stop := 2 }, ok := false }],
                  calls := 1, ranges := [], events := [], processed := [], hung := false }
      0).res = 1 :=
  ((C9_resolution_counter 6 30
      { localActionNames := [], imported := [], locals := [], nsImports := [] } []
      { admits := [], drains := [] }).2.2.2.2
    { res := 0, inFlight := [{ site := { start := 1, stop := 2 }, ok := false }],
      calls := 1, ranges := [], events := [], processed := [], hung := false }
    0 { site := { start := 1, stop := 2 }, ok := false } rfl).1

end SAH
